import Mathlib

/-!
Shallow embedding of the gaminator formula/recompute core:
`characterEvaluator.ts`, `characterFactory.ts`, `characterActions.ts`.

JavaScript numbers are modelled as rationals extended with `NaN` and the two
infinities.  None of the verified properties depends on binary floating-point
rounding; they depend on ordering, clamping, min/max/sum algebra and on the
Infinity/NaN propagation rules, all of which the extended rationals capture.
JavaScript objects (string-keyed records) are modelled as association lists in
insertion order with unique keys maintained by upsert.
-/

namespace Gaminator

/-- A JavaScript number: `NaN`, `+Infinity`, `-Infinity`, or a finite value
(modelled as a rational). -/
inductive JSNum where
  | nan : JSNum
  | posInf : JSNum
  | negInf : JSNum
  | num : ℚ → JSNum
deriving DecidableEq, Repr

namespace JSNum

instance : OfNat JSNum n := ⟨.num n⟩

/-- `Number.isFinite` on an actual number. -/
def isFinite : JSNum → Bool
  | .num _ => true
  | _ => false

/-- `Number.isNaN` on an actual number. -/
def isNaN : JSNum → Bool
  | .nan => true
  | _ => false

/-- JS `+` on numbers. -/
def add : JSNum → JSNum → JSNum
  | .nan, _ => .nan
  | _, .nan => .nan
  | .posInf, .negInf => .nan
  | .negInf, .posInf => .nan
  | .posInf, _ => .posInf
  | _, .posInf => .posInf
  | .negInf, _ => .negInf
  | _, .negInf => .negInf
  | .num a, .num b => .num (a + b)

/-- JS unary minus on numbers. -/
def neg : JSNum → JSNum
  | .nan => .nan
  | .posInf => .negInf
  | .negInf => .posInf
  | .num a => .num (-a)

/-- JS `-` on numbers. -/
def sub (a b : JSNum) : JSNum := add a (neg b)

/-- JS `*` on numbers. -/
def mul : JSNum → JSNum → JSNum
  | .nan, _ => .nan
  | _, .nan => .nan
  | .posInf, .posInf => .posInf
  | .posInf, .negInf => .negInf
  | .negInf, .posInf => .negInf
  | .negInf, .negInf => .posInf
  | .posInf, .num b => if b = 0 then .nan else if 0 < b then .posInf else .negInf
  | .negInf, .num b => if b = 0 then .nan else if 0 < b then .negInf else .posInf
  | .num a, .posInf => if a = 0 then .nan else if 0 < a then .posInf else .negInf
  | .num a, .negInf => if a = 0 then .nan else if 0 < a then .negInf else .posInf
  | .num a, .num b => .num (a * b)

/-- JS `/` on numbers (no signed zero: a finite dividend over `0` is sent to
`+Infinity` or `-Infinity` by the dividend's sign, `0/0` to `NaN`). -/
def div : JSNum → JSNum → JSNum
  | .nan, _ => .nan
  | _, .nan => .nan
  | .posInf, .posInf => .nan
  | .posInf, .negInf => .nan
  | .negInf, .posInf => .nan
  | .negInf, .negInf => .nan
  | .posInf, .num b => if 0 ≤ b then .posInf else .negInf
  | .negInf, .num b => if 0 ≤ b then .negInf else .posInf
  | .num _, .posInf => .num 0
  | .num _, .negInf => .num 0
  | .num a, .num b =>
      if b = 0 then (if a = 0 then .nan else if 0 < a then .posInf else .negInf)
      else .num (a / b)

/-- `Math.floor`. -/
def floor : JSNum → JSNum
  | .nan => .nan
  | .posInf => .posInf
  | .negInf => .negInf
  | .num a => .num (⌊a⌋ : ℤ)

/-- `Math.ceil`. -/
def ceil : JSNum → JSNum
  | .nan => .nan
  | .posInf => .posInf
  | .negInf => .negInf
  | .num a => .num (⌈a⌉ : ℤ)

/-- `Math.round` (half away from zero rounds toward `+Infinity` in JS:
`round(x) = floor(x + 1/2)` for finite `x`). -/
def round : JSNum → JSNum
  | .nan => .nan
  | .posInf => .posInf
  | .negInf => .negInf
  | .num a => .num (⌊a + 1/2⌋ : ℤ)

/-- `Math.min` of two numbers: `NaN` wins, else the smaller. -/
def min2 : JSNum → JSNum → JSNum
  | .nan, _ => .nan
  | _, .nan => .nan
  | .negInf, _ => .negInf
  | _, .negInf => .negInf
  | .posInf, b => b
  | a, .posInf => a
  | .num a, .num b => .num (Min.min a b)

/-- `Math.max` of two numbers: `NaN` wins, else the larger. -/
def max2 : JSNum → JSNum → JSNum
  | .nan, _ => .nan
  | _, .nan => .nan
  | .posInf, _ => .posInf
  | _, .posInf => .posInf
  | .negInf, b => b
  | a, .negInf => a
  | .num a, .num b => .num (Max.max a b)

/-- JS `<=` on numbers (`false` whenever either side is `NaN`). -/
def le : JSNum → JSNum → Bool
  | .nan, _ => false
  | _, .nan => false
  | .negInf, _ => true
  | _, .negInf => false
  | _, .posInf => true
  | .posInf, _ => false
  | .num a, .num b => a ≤ b

/-- JS `<` on numbers (`false` whenever either side is `NaN`). -/
def lt : JSNum → JSNum → Bool
  | .nan, _ => false
  | _, .nan => false
  | _, .negInf => false
  | .negInf, _ => true
  | .posInf, _ => false
  | _, .posInf => true
  | .num a, .num b => a < b

/-- The JS idiom `Number(v) || 0` applied after numeric coercion: `NaN` (and
`0` itself) collapse to `0`, everything else is kept. -/
def orZero (n : JSNum) : JSNum :=
  match n with
  | .nan => .num 0
  | x => x

end JSNum

/-! ### Association lists standing for JS objects (insertion order, unique keys) -/

/-- Property read `o[k]` on a JS object. -/
def aget (m : List (String × α)) (k : String) : Option α :=
  (m.find? (fun p => p.1 = k)).map (·.2)

/-- Property write `o[k] = v` on a JS object: overwrites in place if the key
exists, appends otherwise (JS string-key insertion order). -/
def aset (m : List (String × α)) (k : String) (v : α) : List (String × α) :=
  match m with
  | [] => [(k, v)]
  | (k', v') :: rest => if k' = k then (k, v) :: rest else (k', v') :: aset rest k v

/-- `Object.keys`. -/
def akeys (m : List (String × α)) : List String := m.map (·.1)

/-- `Map.delete k` (removes every entry with the key; with unique keys, the
one entry). -/
def aerase (m : List (String × α)) (k : String) : List (String × α) :=
  m.filter (fun p => p.1 ≠ k)

theorem aget_aset_self (m : List (String × α)) (k : String) (v : α) :
    aget (aset m k v) k = some v := by
  induction m with
  | nil => simp [aset, aget, List.find?]
  | cons hd tl ih =>
    obtain ⟨k', v'⟩ := hd
    by_cases h : k' = k
    · simp [aset, h, aget, List.find?]
    · simpa [aset, h, aget, List.find?] using ih

theorem aget_aset_ne (m : List (String × α)) (k k' : String) (v : α) (h : k ≠ k') :
    aget (aset m k v) k' = aget m k' := by
  induction m with
  | nil => simp [aset, aget, List.find?, h]
  | cons hd tl ih =>
    obtain ⟨k₀, v₀⟩ := hd
    by_cases h₀ : k₀ = k
    · subst h₀
      simp [aset, aget, List.find?, h]
    · by_cases h₁ : k₀ = k'
      · simp [aset, h₀, aget, List.find?, h₁, Ne.symm h]
      · simpa [aset, h₀, aget, List.find?, h₁] using ih

theorem aset_aset_self (m : List (String × α)) (k : String) (v v' : α) :
    aset (aset m k v) k v' = aset m k v' := by
  induction m with
  | nil => simp [aset]
  | cons hd tl ih =>
    obtain ⟨k₀, v₀⟩ := hd
    by_cases h : k₀ = k
    · simp [aset, h]
    · simp [aset, h, ih]

/-- Spread merge `{...a, ...b}`: entries of `b` override same-keyed entries of
`a` in place, new keys append in `b`'s order. -/
def spreadMerge (a b : List (String × α)) : List (String × α) :=
  b.foldl (fun m p => aset m p.1 p.2) a

/-! ### JS `Number(string)` -/

/-- Value of a decimal digit character. -/
def digit? (c : Char) : Option ℕ :=
  if c.isDigit then some (c.toNat - 48) else none

/-- Value of a hexadecimal digit character. -/
def hexDigit? (c : Char) : Option ℕ :=
  if c.isDigit then some (c.toNat - 48)
  else if 'a' ≤ c ∧ c ≤ 'f' then some (c.toNat - 87)
  else if 'A' ≤ c ∧ c ≤ 'F' then some (c.toNat - 55)
  else none

/-- Value of a binary digit character. -/
def binDigit? (c : Char) : Option ℕ :=
  if c = '0' then some 0 else if c = '1' then some 1 else none

/-- Value of an octal digit character. -/
def octDigit? (c : Char) : Option ℕ :=
  if '0' ≤ c ∧ c ≤ '7' then some (c.toNat - 48) else none

/-- Consume leading digits in the given base; returns the accumulated value,
the number of digits consumed, and the rest of the input. -/
def readDigits (dig : Char → Option ℕ) (base : ℕ) :
    List Char → ℕ → ℕ → ℕ × ℕ × List Char
  | [], acc, n => (acc, n, [])
  | c :: cs, acc, n =>
    match dig c with
    | some d => readDigits dig base cs (acc * base + d) (n + 1)
    | none => (acc, n, c :: cs)

/-- Consume an optional sign; `true` means non-negative. -/
def readSign : List Char → Bool × List Char
  | '+' :: cs => (true, cs)
  | '-' :: cs => (false, cs)
  | cs => (true, cs)

/-- Parse the optional exponent suffix of a JS decimal literal and require the
input to be fully consumed. -/
def parseExpPart (mant : ℚ) : List Char → Option ℚ
  | [] => some mant
  | c :: cs =>
    if c = 'e' ∨ c = 'E' then
      let (sgn, cs1) := readSign cs
      let (e, ne, cs2) := readDigits digit? 10 cs1 0 0
      if ne = 0 ∨ cs2 ≠ [] then none
      else some (if sgn then mant * 10 ^ e else mant / 10 ^ e)
    else none

/-- Parse an unsigned JS decimal literal (`digits[.digits][exp]` or
`.digits[exp]`), requiring the input to be fully consumed. -/
def parseDecimal (cs : List Char) : Option ℚ :=
  let (ip, ni, cs1) := readDigits digit? 10 cs 0 0
  match cs1 with
  | '.' :: cs2 =>
    let (fp, nf, cs3) := readDigits digit? 10 cs2 0 0
    if ni + nf = 0 then none
    else parseExpPart ((ip : ℚ) + (fp : ℚ) / (10 : ℚ) ^ nf) cs3
  | _ => if ni = 0 then none else parseExpPart (ip : ℚ) cs1

/-- Parse a full-radix (hex/binary/octal) literal body. -/
def parseRadix (dig : Char → Option ℕ) (base : ℕ) (cs : List Char) : Option ℚ :=
  let (v, n, rest) := readDigits dig base cs 0 0
  if n = 0 ∨ rest ≠ [] then none else some (v : ℚ)

/-- `String.prototype.trim`, written by structural recursion on the character
list (the whitespace set is `Char.isWhitespace`). -/
def jsTrim (s : String) : String :=
  String.mk ((((s.toList.dropWhile Char.isWhitespace).reverse).dropWhile
    Char.isWhitespace).reverse)

/-- JS `Number(string)`: trims, sends the empty string to `0`, recognises the
infinities, signed decimal literals (with fraction and exponent) and unsigned
hex/binary/octal literals; everything else is `NaN`. -/
def jsToNumber (s : String) : JSNum :=
  let t := jsTrim s
  if t = "" then .num 0
  else if t = "Infinity" ∨ t = "+Infinity" then .posInf
  else if t = "-Infinity" then .negInf
  else
    match t.toList with
    | '0' :: 'x' :: cs => ((parseRadix hexDigit? 16 cs).map JSNum.num).getD .nan
    | '0' :: 'X' :: cs => ((parseRadix hexDigit? 16 cs).map JSNum.num).getD .nan
    | '0' :: 'b' :: cs => ((parseRadix binDigit? 2 cs).map JSNum.num).getD .nan
    | '0' :: 'B' :: cs => ((parseRadix binDigit? 2 cs).map JSNum.num).getD .nan
    | '0' :: 'o' :: cs => ((parseRadix octDigit? 8 cs).map JSNum.num).getD .nan
    | '0' :: 'O' :: cs => ((parseRadix octDigit? 8 cs).map JSNum.num).getD .nan
    | cs =>
      let (sgn, cs1) := readSign cs
      match parseDecimal cs1 with
      | some q => .num (if sgn then q else -q)
      | none => .nan

/-! ### Runtime values and the expression AST

The formulas the engine evaluates are produced by `expr-eval`'s parser, which
is an external library; formulas are therefore modelled post-parse as an AST
covering the constructs the engine's scope exposes. -/

/-- A JS runtime value as seen by the expression interpreter. -/
inductive Value where
  | num : JSNum → Value
  | str : String → Value
  | obj : List (String × Value) → Value
  | undef : Value

namespace Value

/-- JS `ToNumber` coercion. -/
def toNumber : Value → JSNum
  | .num n => n
  | .str s => jsToNumber s
  | .undef => .nan
  | .obj _ => .nan

/-- JS `String(n)` for a number.  Faithful for `NaN`, the infinities and
integral values (the only numbers the verified properties stringify);
non-integral rationals are rendered as `num/den`, an explicit modelling
approximation of JS float formatting. -/
def numToDisplay : JSNum → String
  | .nan => "NaN"
  | .posInf => "Infinity"
  | .negInf => "-Infinity"
  | .num q => if q.den = 1 then toString q.num else toString q.num ++ "/" ++ toString q.den

/-- JS `String(v)` / property-key coercion. -/
def toDisplay : Value → String
  | .num n => numToDisplay n
  | .str s => s
  | .undef => "undefined"
  | .obj _ => "[object Object]"

end Value

mutual

/-- Post-parse formula AST (the surface exercised by the engine's scope:
literals, identifiers, member access, arithmetic and builtin calls).
Argument lists are a mutual inductive so that evaluation is structurally
recursive. -/
inductive Expr where
  | lit : JSNum → Expr
  | strLit : String → Expr
  | ident : String → Expr
  | member : Expr → String → Expr
  | neg : Expr → Expr
  | add : Expr → Expr → Expr
  | sub : Expr → Expr → Expr
  | mul : Expr → Expr → Expr
  | div : Expr → Expr → Expr
  | call : String → ExprList → Expr

/-- A list of call arguments. -/
inductive ExprList where
  | nil : ExprList
  | cons : Expr → ExprList → ExprList

end

/-- Build an argument list from a `List Expr`. -/
def ExprList.ofList : List Expr → ExprList
  | [] => .nil
  | e :: es => .cons e (ExprList.ofList es)

/-- `Resource` entry of a character: `{ current, max }`. -/
structure Resource where
  current : JSNum
  max : JSNum
deriving DecidableEq, Repr

/-- `EvalContext` from `characterEvaluator.ts` (also the factory's
`EvaluatorContext`): the five read views plus caller vars. -/
structure EvalContext where
  level : JSNum
  attr : List (String × JSNum)
  res : List (String × Resource)
  prof : List (String × String)
  derived : List (String × JSNum)
  vars : List (String × Value)

/-- Evaluation environment for one `evaluate` call: the evaluator's lookup
tables and dice roller, the call context, and the `scope.vars` object (which
is also the value the module-level `_varsRef` holds for the duration of the
call, per the engine's strictly sequential evaluation). -/
structure Env where
  tables : List (String × List (String × JSNum))
  roller : String → Option Value
  ctx : EvalContext
  vars : List (String × Value)

/-- Resolve a bare identifier against the scope object built in `evaluate`
(`level/attr/res/prof/derived/vars`); any other identifier is an undefined
variable, which `expr-eval` reports by throwing.  (A bare builtin-function
name would really resolve to a function object; every consumer of such a
value — arithmetic, the final `Number.isFinite` — still yields the `0` the
model produces.) -/
def scopeIdent (env : Env) : String → Except Unit Value
  | "level" => .ok (.num env.ctx.level)
  | "attr" => .ok (.obj (env.ctx.attr.map fun p => (p.1, Value.num p.2)))
  | "res" => .ok (.obj (env.ctx.res.map fun p =>
      (p.1, Value.obj [("current", Value.num p.2.current), ("max", Value.num p.2.max)])))
  | "prof" => .ok (.obj (env.ctx.prof.map fun p => (p.1, Value.str p.2)))
  | "derived" => .ok (.obj (env.ctx.derived.map fun p => (p.1, Value.num p.2)))
  | "vars" => .ok (.obj env.vars)
  | _ => .error ()

/-- The read `_varsRef?.caps?.[key]` (and the same path for `"bonuses"`);
`none` models JS `undefined`. -/
def varsGroupGet (vars : List (String × Value)) (group key : String) : Option Value :=
  match aget vars group with
  | some (.obj fs) => aget fs key
  | _ => none

/-- `cap_value(key)`: absent → `+Infinity`; `Infinity` passes through; a value
whose numeric coercion is not finite → `+Infinity`. -/
def capValueKey (vars : List (String × Value)) (key : String) : JSNum :=
  match varsGroupGet vars "caps" key with
  | none => .posInf
  | some (.num .posInf) => .posInf
  | some v =>
    let n := v.toNumber
    if n.isFinite then n else .posInf

/-- `bonus(key)`: absent or non-numeric → `0`. -/
def bonusKey (vars : List (String × Value)) (key : String) : JSNum :=
  let n : JSNum :=
    match varsGroupGet vars "bonuses" key with
    | none => .nan
    | some v => v.toNumber
  if n.isFinite then n else 0

/-- `mod(score)`: the `typeof` guard sends non-numbers to `0`, else
`Math.floor((score - 10) / 2)`. -/
def modFn : Value → JSNum
  | .num n => ((n.sub (.num 10)).div (.num 2)).floor
  | _ => .num 0

/-- The scan in `lookup`: over all table keys that parse as numbers and are
`<= n`, keep the greatest seen so far together with its value (`|| 0`). -/
def lookupScan (n : JSNum) : List (String × JSNum) → JSNum → JSNum → JSNum
  | [], _, val => val
  | (tk, tv) :: rest, best, val =>
    let tn := jsToNumber tk
    if !tn.isNaN && tn.le n && best.lt tn then lookupScan n rest tn tv.orZero
    else lookupScan n rest best val

/-- `lookup(table, key)` from `createPackEvaluator`: exact string-key match
first, then the nearest-lower numeric-key scan, else `0`. -/
def lookupFn (tables : List (String × List (String × JSNum))) (table key : Value) : JSNum :=
  match aget tables table.toDisplay with
  | none => 0
  | some t =>
    let k := key.toDisplay
    match aget t k with
    | some v => v.orZero
    | none =>
      let n := jsToNumber k
      if n.isNaN then 0 else lookupScan n t .negInf 0

/-- `roll(notation)`: the external dice engine either throws (`none`) or
produces a result; `(r && (r.total ?? r.value)) ?? 0` is coerced, and a
non-finite total becomes `0`. -/
def rollFn (roller : String → Option Value) (nota : Value) : JSNum :=
  match roller nota.toDisplay with
  | none => 0
  | some (.obj fs) =>
    let inner : Value :=
      match aget fs "total" with
      | some t => t
      | none => (aget fs "value").getD .undef
    let total : JSNum :=
      match inner with
      | .undef => 0
      | v => v.toNumber
    if total.isFinite then total else 0
  | some _ => 0

/-- JS `+`: a string (or object) operand concatenates via `String(..)`,
otherwise numeric addition. -/
def jsPlus (a b : Value) : Value :=
  match a, b with
  | .str _, _ => .str (a.toDisplay ++ b.toDisplay)
  | _, .str _ => .str (a.toDisplay ++ b.toDisplay)
  | .obj _, _ => .str (a.toDisplay ++ b.toDisplay)
  | _, .obj _ => .str (a.toDisplay ++ b.toDisplay)
  | _, _ => .num (a.toNumber.add b.toNumber)

/-- Dispatch a call `f(args)` against the functions installed in the scope by
`evaluate`; calling any other name throws in `expr-eval`. -/
def applyBuiltin (env : Env) (f : String) (args : List Value) : Except Unit Value :=
  let arg (i : ℕ) : Value := args.getD i .undef
  let nm (i : ℕ) : JSNum := (arg i).toNumber
  match f with
  | "floor" => .ok (.num (nm 0).floor)
  | "ceil" => .ok (.num (nm 0).ceil)
  | "round" => .ok (.num (nm 0).round)
  | "min" => .ok (.num (args.foldl (fun a v => JSNum.min2 a v.toNumber) .posInf))
  | "max" => .ok (.num (args.foldl (fun a v => JSNum.max2 a v.toNumber) .negInf))
  | "clamp" => .ok (.num (JSNum.max2 (nm 1) (JSNum.min2 (nm 2) (nm 0))))
  | "mod" => .ok (.num (modFn (arg 0)))
  | "lookup" => .ok (.num (lookupFn env.tables (arg 0) (arg 1)))
  | "roll" => .ok (.num (rollFn env.roller (arg 0)))
  | "take_higher_of" => .ok (.num (JSNum.max2 (nm 0).orZero (nm 1).orZero))
  | "take_lower_of" => .ok (.num (JSNum.min2 (nm 0).orZero (nm 1).orZero))
  | "cap" => .ok (.num (JSNum.min2 (nm 0).orZero (capValueKey env.vars (arg 1).toDisplay)))
  | "cap_value" => .ok (.num (capValueKey env.vars (arg 0).toDisplay))
  | "bonus" => .ok (.num (bonusKey env.vars (arg 0).toDisplay))
  | _ => .error ()

mutual

/-- Evaluate a parsed formula against the scope; `.error` models a thrown JS
exception (undefined variable, unknown function, property of `undefined`). -/
def evalExpr (env : Env) : Expr → Except Unit Value
  | .lit n => .ok (.num n)
  | .strLit s => .ok (.str s)
  | .ident name => scopeIdent env name
  | .member e f => do
    match ← evalExpr env e with
    | .obj fs => pure ((aget fs f).getD .undef)
    | .undef => .error ()
    | _ => pure .undef
  | .neg e => do
    let v ← evalExpr env e
    pure (.num v.toNumber.neg)
  | .add a b => do
    let va ← evalExpr env a
    let vb ← evalExpr env b
    pure (jsPlus va vb)
  | .sub a b => do
    let va ← evalExpr env a
    let vb ← evalExpr env b
    pure (.num (va.toNumber.sub vb.toNumber))
  | .mul a b => do
    let va ← evalExpr env a
    let vb ← evalExpr env b
    pure (.num (va.toNumber.mul vb.toNumber))
  | .div a b => do
    let va ← evalExpr env a
    let vb ← evalExpr env b
    pure (.num (va.toNumber.div vb.toNumber))
  | .call f args => do
    let vs ← evalArgs env args
    applyBuiltin env f vs

/-- Evaluate call arguments left to right. -/
def evalArgs (env : Env) : ExprList → Except Unit (List Value)
  | .nil => .ok []
  | .cons e es => do
    let v ← evalExpr env e
    let vs ← evalArgs env es
    pure (v :: vs)

end

/-- Build `scope.vars = { base_hp: 0, ...(ctx.vars ?? {}) }`. -/
def mkVarsObj (ctxVars : List (String × Value)) : List (String × Value) :=
  spreadMerge [("base_hp", Value.num 0)] ctxVars

/-- The evaluator's `evaluate` with the compiled-expression cache elided (its
transparency is proved separately) and the external `expr-eval` parser and
dice roller as explicit parameters: empty input → `0`; parse or runtime
failure → `0`; a result that is not a finite number → `0`. -/
def evaluateU (tables : List (String × List (String × JSNum)))
    (roller : String → Option Value) (parse : String → Option Expr)
    (expr : String) (ctx : EvalContext) : JSNum :=
  if expr = "" then 0
  else
    match parse (jsTrim expr) with
    | none => 0
    | some ast =>
      match evalExpr ⟨tables, roller, ctx, mkVarsObj ctx.vars⟩ ast with
      | .error _ => 0
      | .ok (.num n) => if n.isFinite then n else 0
      | .ok _ => 0

/-- The lookup-table map built by `createPackEvaluator`:
`{...(pack.rules?.lookups ?? {}), ...(pack.content?.lookups ?? {})}`. -/
def packTablesOf (rulesLookups contentLookups : List (String × List (String × JSNum))) :
    List (String × List (String × JSNum)) :=
  spreadMerge rulesLookups contentLookups

/-- The type of the evaluator closure handed to the factory and the actions. -/
abbrev Evaluator := String → EvalContext → JSNum

/-! ### The compiled-expression cache (`TinyLRU` / `compile`) -/

/-- `TinyLRU`: a `Map`-backed LRU keyed by trimmed expression text; the
capacity is floored at 8.  The `Map`'s insertion order is the recency order
(oldest first). -/
structure TinyLRU where
  cap : ℕ
  map : List (String × Expr)

/-- `new TinyLRU(capacity)`. -/
def TinyLRU.make (capacity : ℕ) : TinyLRU := ⟨Max.max 8 capacity, []⟩

/-- `get`: on a hit, delete + re-insert moves the entry to the most recently
used (last) position; a miss leaves the map untouched. -/
def TinyLRU.get (c : TinyLRU) (k : String) : Option Expr × TinyLRU :=
  match aget c.map k with
  | some hit => (some hit, ⟨c.cap, aerase c.map k ++ [(k, hit)]⟩)
  | none => (none, c)

/-- `set`: delete any old entry, insert at the end, and evict the oldest
(first) key when the capacity is exceeded. -/
def TinyLRU.set (c : TinyLRU) (k : String) (v : Expr) : TinyLRU :=
  let m1 := (if (aget c.map k).isSome then aerase c.map k else c.map) ++ [(k, v)]
  if c.cap < m1.length then
    match akeys m1 with
    | [] => ⟨c.cap, m1⟩
    | oldest :: _ => ⟨c.cap, aerase m1 oldest⟩
  else ⟨c.cap, m1⟩

/-- `compile`: look the trimmed text up in the cache; parse and insert on a
miss; a parser exception (`none`) propagates with the cache untouched. -/
def compile (parse : String → Option Expr) (c : TinyLRU) (expr : String) :
    Option Expr × TinyLRU :=
  let key := jsTrim expr
  match TinyLRU.get c key with
  | (some hit, c') => (some hit, c')
  | (none, c') =>
    match parse key with
    | none => (none, c')
    | some compiled => (some compiled, c'.set key compiled)

/-- The evaluator's `evaluate` with the real cached `compile` path, threading
the cache state. -/
def evaluateC (tables : List (String × List (String × JSNum)))
    (roller : String → Option Value) (parse : String → Option Expr)
    (c : TinyLRU) (expr : String) (ctx : EvalContext) : JSNum × TinyLRU :=
  if expr = "" then (0, c)
  else
    match compile parse c expr with
    | (none, c') => (0, c')
    | (some ast, c') =>
      match evalExpr ⟨tables, roller, ctx, mkVarsObj ctx.vars⟩ ast with
      | .error _ => (0, c')
      | .ok (.num n) => (if n.isFinite then n else 0, c')
      | .ok _ => (0, c')

/-! ### Pack and character data model (`characterFactory.ts`) -/

structure PackSchemaAttribute where
  id : String
  min : Option JSNum
  max : Option JSNum
  default : Option JSNum
deriving DecidableEq, Repr

structure PackSchemaResource where
  id : String
  defaultMaxFormula : Option String
deriving DecidableEq, Repr

structure PackSchemaProficiencyCategory where
  id : String
  ranks : List String
deriving DecidableEq, Repr

structure PackSchemaItemSlot where
  id : String
  maxEquipped : Option ℕ
deriving DecidableEq, Repr

structure PackSchemaDerived where
  id : String
  formula : Option String
deriving DecidableEq, Repr

structure PackSchemaInventory where
  mode : Option String
  maxSlots : Option JSNum
  weightLimitFormula : Option String
  slotTypes : List PackSchemaItemSlot
deriving DecidableEq, Repr

structure PackSchema where
  attributes : List PackSchemaAttribute
  resources : List PackSchemaResource
  proficiencyCategories : List PackSchemaProficiencyCategory
  itemSlots : List PackSchemaItemSlot
  inventory : Option PackSchemaInventory
  tags : List String
  derived : List PackSchemaDerived
deriving DecidableEq, Repr

structure PackMechanicsInventory where
  mode : Option String
  maxSlots : Option JSNum
  weightLimitFormula : Option String
deriving DecidableEq, Repr

structure PackMechanics where
  inventory : Option PackMechanicsInventory
deriving DecidableEq, Repr

/-- A stacking policy value.  The validation boundary guarantees only the
strings `"min"`, `"max"`, `"sum"` reach the engine. -/
inductive StackingMode where
  | min : StackingMode
  | max : StackingMode
  | sum : StackingMode
deriving DecidableEq, Repr

structure PackRules where
  lookups : List (String × List (String × JSNum))
  tagCaps : List (String × List (String × JSNum))
  tagBonuses : List (String × List (String × JSNum))
  stacking : List (String × List (String × StackingMode))
deriving DecidableEq, Repr

structure PackMetadata where
  id : String
deriving DecidableEq, Repr

/-- The normalized pack document.  `content` is consulted only for its
`lookups`, so it shares the `PackRules` shape. -/
structure LoadedPack where
  metadata : Option PackMetadata
  schema : Option PackSchema
  mechanics : Option PackMechanics
  rules : Option PackRules
  content : Option PackRules
deriving DecidableEq, Repr

/-- An inventory item.  The source's `InventoryItem` interface omits
`caps`/`bonuses`, but `summarizeEquipmentVars` reads them as dynamic fields,
so they are modelled as optional fields. -/
structure InventoryItem where
  instanceId : String
  contentId : String
  label : String
  weight : Option JSNum
  tags : List String
  slot : Option String
  caps : Option (List (String × JSNum))
  bonuses : Option (List (String × JSNum))
deriving DecidableEq, Repr

structure Inventory where
  mode : String
  maxSlots : JSNum
  weightLimit : JSNum
  items : List InventoryItem
  carriedWeight : JSNum
deriving DecidableEq, Repr

structure Slot where
  max : ℕ
  equipped : List (Option String)
deriving DecidableEq, Repr

/-- The character model.  `nanoid()` ids and ISO timestamps are modelled as
`""` — no verified property mentions them. -/
structure Character where
  id : String
  name : String
  systemId : String
  level : JSNum
  createdAt : String
  updatedAt : String
  attr : List (String × JSNum)
  res : List (String × Resource)
  prof : List (String × String)
  derived : List (String × JSNum)
  inventory : Inventory
  slots : List (String × Slot)
  tags : List String
  notes : Option String
deriving DecidableEq, Repr

structure SeedResource where
  current : Option JSNum
  max : Option JSNum
deriving DecidableEq, Repr

structure CreateCharacterOptions where
  name : Option String
  level : Option JSNum
  seedAttributes : List (String × JSNum)
  seedResources : List (String × SeedResource)
  seedProficiencies : List (String × String)
  tags : Option (List String)
  notes : Option String
  vars : List (String × Value)

/-- The all-absent options value (`createCharacter(pack, evaluator, {})`). -/
def CreateCharacterOptions.empty : CreateCharacterOptions :=
  ⟨none, none, [], [], [], none, none, []⟩

/-- The factory's `clamp`: clamp inside optional bounds (lower bound applied
first, then upper). -/
def clampOpt (value : JSNum) (lo hi : Option JSNum) : JSNum :=
  let v := match lo with
    | some m => JSNum.max2 m value
    | none => value
  match hi with
  | some m => JSNum.min2 m v
  | none => v

/-- `buildSlots`: slot containers from legacy `schema.itemSlots` followed by
`schema.inventory.slotTypes`, each sized `max(1, maxEquipped ?? 1)` and filled
with `null`. -/
def buildSlots (schema : Option PackSchema) : List (String × Slot) :=
  let fromLegacy := (schema.map (·.itemSlots)).getD []
  let fromInventory := ((schema.bind (·.inventory)).map (·.slotTypes)).getD []
  (fromLegacy ++ fromInventory).foldl (fun out s =>
    let m := Max.max 1 (s.maxEquipped.getD 1)
    aset out s.id ⟨m, List.replicate m none⟩) []

/-- `buildProficiencies`: seed value or first rank (else `"untrained"`), then
a lodash-merge of the seeds over the result. -/
def buildProficiencies (schema : Option PackSchema) (seeds : List (String × String)) :
    List (String × String) :=
  let out := (((schema.map (·.proficiencyCategories)).getD []).foldl (fun out c =>
    aset out c.id ((aget seeds c.id).getD (c.ranks.headD "untrained"))) [])
  spreadMerge out seeds

structure InventoryCaps where
  mode : String
  maxSlots : JSNum
  weightLimit : JSNum
deriving DecidableEq, Repr

/-- `computeInventoryCaps`: `schema.inventory` over legacy
`mechanics.inventory`; `weightLimit = max(0, floor(evaluate(formula ?? "0")))`. -/
def computeInventoryCaps (pack : LoadedPack) (evaluator : Evaluator)
    (ctx : EvalContext) : InventoryCaps :=
  let invSchema := pack.schema.bind (·.inventory)
  let invMech := pack.mechanics.bind (·.inventory)
  let mode := ((invSchema.bind (·.mode)).orElse fun _ => invMech.bind (·.mode)).getD "weight_limit"
  let maxSlots := ((invSchema.bind (·.maxSlots)).orElse fun _ => invMech.bind (·.maxSlots)).getD (.num 36)
  let weightLimitExpr := ((invSchema.bind (·.weightLimitFormula)).orElse
    fun _ => invMech.bind (·.weightLimitFormula)).getD "0"
  let weightLimit := JSNum.max2 0 (evaluator weightLimitExpr ctx).floor
  ⟨mode, maxSlots, weightLimit⟩

/-- `createCharacter`.  The thrown error on a missing/falsy `pack.metadata.id`
is modelled as `none`.  The source's live `baseCtx` object (whose `res` map is
mutated while resources are evaluated in declaration order) is modelled by
rebuilding the context at each step with the map accumulated so far. -/
def createCharacter (pack : LoadedPack) (evaluator : Evaluator)
    (options : CreateCharacterOptions) : Option Character :=
  match pack.metadata with
  | none => none
  | some md =>
    if md.id = "" then none
    else
      let level := JSNum.max2 1 (options.level.getD 1).floor
      let attr0 := ((pack.schema.map (·.attributes)).getD []).foldl (fun attr a =>
        let base := (aget options.seedAttributes a.id).getD (a.default.getD 10)
        aset attr a.id (clampOpt base a.min a.max)) []
      let attr := spreadMerge attr0 options.seedAttributes
      let prof := buildProficiencies pack.schema options.seedProficiencies
      let res0 := ((pack.schema.map (·.resources)).getD []).foldl (fun res r =>
        let baseCtx : EvalContext := ⟨level, attr, res, prof, [], options.vars⟩
        let mx := JSNum.max2 0 (evaluator (r.defaultMaxFormula.getD "0") baseCtx).floor
        let seed := aget options.seedResources r.id
        let finalMax := (seed.bind (·.max)).getD mx
        let current := (seed.bind (·.current)).getD finalMax
        aset res r.id ⟨JSNum.max2 0 current, JSNum.max2 0 finalMax⟩) []
      let res := options.seedResources.foldl (fun res p =>
        if (aget res p.1).isSome then res
        else
          let m := JSNum.max2 0 (p.2.max.getD 0).floor
          let c := JSNum.max2 0 (p.2.current.getD m).floor
          aset res p.1 ⟨c, m⟩) res0
      let capsCtx : EvalContext := ⟨level, attr, res, prof, [], options.vars⟩
      let caps := computeInventoryCaps pack evaluator capsCtx
      let slots := buildSlots pack.schema
      let derived := ((pack.schema.map (·.derived)).getD []).foldl (fun dm d =>
        let dctx : EvalContext := ⟨level, attr, res, prof, dm, options.vars⟩
        let v := evaluator (d.formula.getD "0") dctx
        aset dm d.id (if v.isFinite then v else 0)) []
      some
        { id := "", name := options.name.getD "Test Character", systemId := md.id
          level := level, createdAt := "", updatedAt := ""
          attr := attr, res := res, prof := prof, derived := derived
          inventory := ⟨caps.mode, caps.maxSlots, caps.weightLimit, [], 0⟩
          slots := slots
          tags := options.tags.getD ((pack.schema.map (·.tags)).getD [])
          notes := options.notes }

/-- `recalcCharacter`: recompute resource maxima (clamping `current` down to
the new max, never raising it), then inventory capacity, then the full
`derived` map, in that order.  The live `ctx` object is modelled by rebuilding
the context with the state updated so far. -/
def recalcCharacter (character : Character) (pack : LoadedPack)
    (evaluator : Evaluator) (vars : List (String × Value)) : Character :=
  let res := ((pack.schema.map (·.resources)).getD []).foldl (fun res r =>
    let ctx : EvalContext := ⟨character.level, character.attr, res, character.prof,
      character.derived, vars⟩
    let newMax := JSNum.max2 0 (evaluator (r.defaultMaxFormula.getD "0") ctx).floor
    let current := JSNum.min2 (((aget res r.id).map (·.current)).getD newMax) newMax
    aset res r.id ⟨current, newMax⟩) character.res
  let ctx : EvalContext := ⟨character.level, character.attr, res, character.prof,
    character.derived, vars⟩
  let caps := computeInventoryCaps pack evaluator ctx
  let derived := ((pack.schema.map (·.derived)).getD []).foldl (fun dm d =>
    let dctx : EvalContext := ⟨character.level, character.attr, res, character.prof, dm, vars⟩
    let v := evaluator (d.formula.getD "0") dctx
    aset dm d.id (if v.isFinite then v else 0)) []
  { character with
      res := res
      inventory := { character.inventory with
        mode := caps.mode, maxSlots := caps.maxSlots, weightLimit := caps.weightLimit }
      derived := derived
      updatedAt := "" }

/-- `computeCarriedWeight`: sum of nonnegative item weights, rounded to two
decimal places. -/
def computeCarriedWeight (character : Character) : JSNum :=
  let total := character.inventory.items.foldl
    (fun t it => JSNum.add t (JSNum.max2 0 (it.weight.getD 0))) 0
  ((total.mul (.num 100)).round).div (.num 100)

/-- `addItem` (factory): push the item, recompute carried weight, optionally
auto-equip into the hinted slot's first free position.  The `nanoid()` fresh
instance id is modelled as the id carried by `item`. -/
def addItem (character : Character) (item : InventoryItem) (autoEquip : Bool) : Character :=
  let c1 := { character with inventory :=
    { character.inventory with items := character.inventory.items ++ [item] } }
  let c2 := { c1 with inventory :=
    { c1.inventory with carriedWeight := computeCarriedWeight c1 } }
  match autoEquip, item.slot with
  | true, some slotId =>
    if slotId = "" then c2
    else
      match aget c2.slots slotId with
      | some slot =>
        match slot.equipped.findIdx? (·.isNone) with
        | some idx =>
          let slot' : Slot := ⟨slot.max, slot.equipped.set idx (some item.instanceId)⟩
          { c2 with slots := aset c2.slots slotId slot' }
        | none => c2
      | none => c2
  | _, _ => c2

/-! ### Actions (`characterActions.ts`) -/

/-- The actions module's `clamp(n, lo, hi)`. -/
def clamp (n lo hi : JSNum) : JSNum := JSNum.max2 lo (JSNum.min2 hi n)

/-- `findItemByInstance`. -/
def findItemByInstance (character : Character) (instanceId : String) : Option InventoryItem :=
  character.inventory.items.find? (fun i => i.instanceId = instanceId)

/-- `mergeCap`: a non-finite incoming value keeps the running value (or
`Infinity` on first contribution); the first finite contribution is taken
as-is; later ones combine by the stacking mode. -/
def mergeCap (existing : Option JSNum) (incoming : JSNum) (mode : StackingMode) : JSNum :=
  if !incoming.isFinite then existing.getD .posInf
  else
    match existing with
    | none => incoming
    | some e =>
      match mode with
      | .min => JSNum.min2 e incoming
      | .max => JSNum.max2 e incoming
      | .sum => JSNum.add e incoming

/-- `mergeBonus`: as `mergeCap` but a non-finite first contribution defaults
to `0`. -/
def mergeBonus (existing : Option JSNum) (incoming : JSNum) (mode : StackingMode) : JSNum :=
  if !incoming.isFinite then existing.getD 0
  else
    match existing with
    | none => incoming
    | some e =>
      match mode with
      | .sum => JSNum.add e incoming
      | .max => JSNum.max2 e incoming
      | .min => JSNum.min2 e incoming

/-- `getStackingMode`: per-key entry in `rules.stacking[group]`, else that
group's `default` entry, else caps→`min` / bonuses→`sum`. -/
def getStackingMode (pack : LoadedPack) (group : String) (key : String) : StackingMode :=
  let stacking := (pack.rules.map (·.stacking)).getD []
  let table := (aget stacking group).getD []
  let dflt := (aget table "default").getD (if group = "caps" then .min else .sum)
  (aget table key).getD dflt

/-- `getEquippedIds`: instance ids referenced by some slot position (a JS
`Set`, used only for membership, so duplicates in the list are harmless;
falsy entries — `null` slots and the empty string — are skipped by
`if (inst)`). -/
def getEquippedIds (character : Character) : List String :=
  character.slots.foldl (fun ids p =>
    p.2.equipped.foldl (fun ids inst =>
      match inst with
      | some s => if s = "" then ids else ids ++ [s]
      | none => ids) ids) []

/-- `mergeKeyedNumbers`: fold a `key → number` record into the target,
skipping non-finite contributions, merging each key under its policy. -/
def mergeKeyedNumbers (target : List (String × JSNum)) (incoming : List (String × JSNum))
    (policyFor : String → StackingMode) (isCap : Bool) : List (String × JSNum) :=
  incoming.foldl (fun target p =>
    if !p.2.isFinite then target
    else
      let mode := policyFor p.1
      if isCap then aset target p.1 (mergeCap (aget target p.1) p.2 mode)
      else aset target p.1 (mergeBonus (aget target p.1) p.2 mode)) target

/-- The item loop of `summarizeEquipmentVars` over a given item list: skip
items that are not equipped; merge per-item `caps`/`bonuses` first, then the
pack's tag rules in tag order. -/
def summarizeLoop (pack : LoadedPack) (equippedIds : List String)
    (items : List InventoryItem) : (List (String × JSNum)) × (List (String × JSNum)) :=
  items.foldl (fun acc it =>
    if it.instanceId ∈ equippedIds then
      let caps := match it.caps with
        | some itemCaps =>
          mergeKeyedNumbers acc.1 itemCaps (fun key => getStackingMode pack "caps" key) true
        | none => acc.1
      let bonuses := match it.bonuses with
        | some itemBonuses =>
          mergeKeyedNumbers acc.2 itemBonuses (fun key => getStackingMode pack "bonuses" key) false
        | none => acc.2
      let tc := (pack.rules.map (·.tagCaps)).getD []
      let tb := (pack.rules.map (·.tagBonuses)).getD []
      let caps2 := it.tags.foldl (fun c tag =>
        match aget tc tag with
        | some rule => mergeKeyedNumbers c rule (fun key => getStackingMode pack "caps" key) true
        | none => c) caps
      let bonuses2 := it.tags.foldl (fun b tag =>
        match aget tb tag with
        | some rule => mergeKeyedNumbers b rule (fun key => getStackingMode pack "bonuses" key) false
        | none => b) bonuses
      (caps2, bonuses2)
    else acc) ([], [])

/-- `summarizeEquipmentVars`: the `{ caps, bonuses }` vars object. -/
def summarizeEquipmentVars (character : Character) (pack : LoadedPack) :
    List (String × Value) :=
  let acc := summarizeLoop pack (getEquippedIds character) character.inventory.items
  [("caps", Value.obj (acc.1.map fun p => (p.1, Value.num p.2))),
   ("bonuses", Value.obj (acc.2.map fun p => (p.1, Value.num p.2)))]

/-- `recompute`: summarize equipment into vars, then `recalcCharacter`. -/
def recompute (character : Character) (pack : LoadedPack) (evaluator : Evaluator) : Character :=
  recalcCharacter character pack evaluator (summarizeEquipmentVars character pack)

/-- `setAttribute`: unknown id is a silent no-op, else write and recompute. -/
def setAttribute (character : Character) (pack : LoadedPack) (evaluator : Evaluator)
    (id : String) (value : JSNum) : Character :=
  match aget character.attr id with
  | none => character
  | some _ => recompute { character with attr := aset character.attr id value } pack evaluator

/-- `deltaAttribute`. -/
def deltaAttribute (character : Character) (pack : LoadedPack) (evaluator : Evaluator)
    (id : String) (delta : JSNum) : Character :=
  match aget character.attr id with
  | none => character
  | some old =>
    recompute { character with attr := aset character.attr id (old.add delta) } pack evaluator

/-- `setLevel`: `max(1, floor(level))`, then recompute. -/
def setLevel (character : Character) (pack : LoadedPack) (evaluator : Evaluator)
    (level : JSNum) : Character :=
  recompute { character with level := JSNum.max2 1 level.floor } pack evaluator

/-- `addLevels`. -/
def addLevels (character : Character) (pack : LoadedPack) (evaluator : Evaluator)
    (delta : JSNum) : Character :=
  setLevel character pack evaluator (character.level.add delta)

/-- `setResourceCurrent`: unknown id is a silent no-op, else clamp into
`[0, max]` and recompute. -/
def setResourceCurrent (character : Character) (pack : LoadedPack) (evaluator : Evaluator)
    (id : String) (value : JSNum) : Character :=
  match aget character.res id with
  | none => character
  | some r =>
    recompute { character with res := aset character.res id ⟨clamp value 0 r.max, r.max⟩ }
      pack evaluator

/-- `damage`. -/
def damage (character : Character) (pack : LoadedPack) (evaluator : Evaluator)
    (resourceId : String) (amount : JSNum) : Character :=
  match aget character.res resourceId with
  | none => character
  | some r =>
    let newCur := clamp (r.current.sub (JSNum.max2 0 amount)) 0 r.max
    recompute { character with res := aset character.res resourceId ⟨newCur, r.max⟩ }
      pack evaluator

/-- `heal`. -/
def heal (character : Character) (pack : LoadedPack) (evaluator : Evaluator)
    (resourceId : String) (amount : JSNum) : Character :=
  match aget character.res resourceId with
  | none => character
  | some r =>
    let newCur := clamp (r.current.add (JSNum.max2 0 amount)) 0 r.max
    recompute { character with res := aset character.res resourceId ⟨newCur, r.max⟩ }
      pack evaluator

/-- `spend` = `damage`. -/
def spend (character : Character) (pack : LoadedPack) (evaluator : Evaluator)
    (resourceId : String) (amount : JSNum) : Character :=
  damage character pack evaluator resourceId amount

/-- `gain` = `heal`. -/
def gain (character : Character) (pack : LoadedPack) (evaluator : Evaluator)
    (resourceId : String) (amount : JSNum) : Character :=
  heal character pack evaluator resourceId amount

/-- `longRest`: every resource's `current := max`, then recompute. -/
def longRest (character : Character) (pack : LoadedPack) (evaluator : Evaluator) : Character :=
  let res := character.res.map fun p => (p.1, Resource.mk p.2.max p.2.max)
  recompute { character with res := res } pack evaluator

/-- `shortRest`: a bare recompute. -/
def shortRest (character : Character) (pack : LoadedPack) (evaluator : Evaluator) : Character :=
  recompute character pack evaluator

/-- `addItemToInventory`: push and refresh `carriedWeight` (no formula
recompute and no rounding here, unlike the factory's `computeCarriedWeight`). -/
def addItemToInventory (character : Character) (item : InventoryItem) : Character :=
  let items := character.inventory.items ++ [item]
  let carried := items.foldl (fun s it => JSNum.add s (JSNum.max2 0 (it.weight.getD 0))) 0
  { character with inventory :=
    { character.inventory with items := items, carriedWeight := carried } }

/-- `equip`: no-op unless the item exists, the slot exists, and the slot has a
free (`null`) position; then write the instance id into the first free
position and recompute. -/
def equip (character : Character) (pack : LoadedPack) (evaluator : Evaluator)
    (instanceId slotId : String) : Character :=
  match findItemByInstance character instanceId with
  | none => character
  | some _ =>
    match aget character.slots slotId with
    | none => character
    | some slot =>
      match slot.equipped.findIdx? (·.isNone) with
      | none => character
      | some idx =>
        recompute { character with
          slots := aset character.slots slotId
            ⟨slot.max, slot.equipped.set idx (some instanceId)⟩ } pack evaluator

/-- `unequip`: clear every slot position holding the instance id, then
recompute. -/
def unequip (character : Character) (pack : LoadedPack) (evaluator : Evaluator)
    (instanceId : String) : Character :=
  let slots := character.slots.map fun p =>
    (p.1, Slot.mk p.2.max (p.2.equipped.map fun e =>
      if e = some instanceId then none else e))
  recompute { character with slots := slots } pack evaluator

/-! ### Shared helper lemmas -/

/-- `evaluate` is total and every branch of its result guard yields a finite
number: the wrapper catches parse and runtime failures and coerces
non-finite results to `0`. -/
theorem evaluateU_isFinite (tables : List (String × List (String × JSNum)))
    (roller : String → Option Value) (parse : String → Option Expr)
    (expr : String) (ctx : EvalContext) :
    (evaluateU tables roller parse expr ctx).isFinite = true := by
  unfold evaluateU
  repeat' split
  all_goals first | assumption | rfl

/-! ### C2: evaluate never throws and always yields a finite number -/

/-- C2: for every expression string, context, parser and dice roller,
`evaluate` is total (never throws, by construction of the embedding) and its
result is always a finite number; the empty string, a parse failure, a
runtime evaluation error, and a non-finite result each yield `0`. -/
theorem claim_C2_evaluate_total_finite :
    (∀ tables roller parse expr ctx,
      (evaluateU tables roller parse expr ctx).isFinite = true) ∧
    (∀ tables roller parse ctx,
      evaluateU tables roller parse "" ctx = 0) ∧
    (∀ tables roller parse expr ctx, parse (jsTrim expr) = none →
      evaluateU tables roller parse expr ctx = 0) ∧
    (∀ tables roller parse expr ctx ast, parse (jsTrim expr) = some ast →
      evalExpr ⟨tables, roller, ctx, mkVarsObj ctx.vars⟩ ast = .error () →
      evaluateU tables roller parse expr ctx = 0) ∧
    (∀ tables roller parse expr ctx ast v, parse (jsTrim expr) = some ast →
      evalExpr ⟨tables, roller, ctx, mkVarsObj ctx.vars⟩ ast = .ok v →
      (∀ n, v = Value.num n → n.isFinite = false) →
      evaluateU tables roller parse expr ctx = 0) := by
  refine ⟨evaluateU_isFinite, ?_, ?_, ?_, ?_⟩
  · intro tables roller parse ctx
    simp [evaluateU]
  · intro tables roller parse expr ctx hp
    unfold evaluateU
    split
    · rfl
    · simp [hp]
  · intro tables roller parse expr ctx ast hp he
    unfold evaluateU
    split
    · rfl
    · simp only [hp, he]
  · intro tables roller parse expr ctx ast v hp he hv
    unfold evaluateU
    split
    · rfl
    · simp only [hp, he]
      match v, he with
      | .num n, _ => simp [hv n rfl]
      | .str _, _ => rfl
      | .obj _, _ => rfl
      | .undef, _ => rfl

/-- C2 witness: the conjuncts instantiated at concrete inputs (a parser
recognising one well-formed, one erroring and one non-finite formula). -/
theorem claim_C2_evaluate_total_finite_witness :
    (evaluateU [] (fun _ => none) (fun _ => none) "x" ⟨1, [], [], [], [], []⟩ = 0) ∧
    (evaluateU [] (fun _ => none)
      (fun s => if s = "boom" then some (.ident "boom") else none) "boom"
      ⟨1, [], [], [], [], []⟩ = 0) ∧
    (evaluateU [] (fun _ => none)
      (fun s => if s = "1/0" then some (.div (.lit 1) (.lit 0)) else none) "1/0"
      ⟨1, [], [], [], [], []⟩ = 0) ∧
    (evaluateU [] (fun _ => none) (fun _ => none) "" ⟨1, [], [], [], [], []⟩ = 0) := by
  refine ⟨?_, ?_, ?_, ?_⟩
  · exact claim_C2_evaluate_total_finite.2.2.1 _ _ _ "x" _ rfl
  · exact claim_C2_evaluate_total_finite.2.2.2.1 _ _ _ "boom" _ (.ident "boom") rfl rfl
  · exact claim_C2_evaluate_total_finite.2.2.2.2 _ _ _ "1/0" _
      (.div (.lit 1) (.lit 0)) (.num .posInf) rfl rfl
      (by intro n h; cases h; rfl)
  · exact claim_C2_evaluate_total_finite.2.1 _ _ _ _

/-- `Math.min(v, +Infinity) = v` for every number `v` other than `NaN`. -/
theorem JSNum.min2_posInf (v : JSNum) (h : v.isNaN = false) :
    JSNum.min2 v .posInf = v := by
  cases v <;> simp_all [JSNum.min2, JSNum.isNaN]

/-- `Number(v) || 0 = v` for every number `v` other than `NaN`. -/
theorem JSNum.orZero_eq_self (v : JSNum) (h : v.isNaN = false) :
    v.orZero = v := by
  cases v <;> simp_all [JSNum.orZero, JSNum.isNaN]

/-! ### C6: cap_value / cap / bonus -/

/-- C6: with vars bound during an `evaluate` call, `cap_value(key)` returns
the finite numeric coercion of `vars.caps[key]` and `+Infinity` when the key
is absent or the value is `Infinity` or does not coerce to a finite number;
`cap(value, key)` dispatches to `min(Number(value)||0, cap_value(key))`, so a
non-`NaN` value is returned unchanged when the key is absent; `bonus(key)`
returns the finite numeric coercion of `vars.bonuses[key]` and `0` when the
key is absent or non-numeric. -/
theorem claim_C6_cap_bonus_semantics :
    (∀ vars key, varsGroupGet vars "caps" key = none →
      capValueKey vars key = .posInf) ∧
    (∀ vars key v, varsGroupGet vars "caps" key = some v →
      v.toNumber.isFinite = true → capValueKey vars key = v.toNumber) ∧
    (∀ vars key v, varsGroupGet vars "caps" key = some v →
      v.toNumber.isFinite = false → capValueKey vars key = .posInf) ∧
    (∀ env f value key, applyBuiltin env "cap" [value, key] = .ok (.num f) →
      f = JSNum.min2 value.toNumber.orZero (capValueKey env.vars key.toDisplay)) ∧
    (∀ env (v : JSNum) key, varsGroupGet env.vars "caps" key = none →
      v.isNaN = false →
      applyBuiltin env "cap" [.num v, .str key] = .ok (.num v)) ∧
    (∀ vars key, varsGroupGet vars "bonuses" key = none → bonusKey vars key = 0) ∧
    (∀ vars key v, varsGroupGet vars "bonuses" key = some v →
      v.toNumber.isFinite = true → bonusKey vars key = v.toNumber) ∧
    (∀ vars key v, varsGroupGet vars "bonuses" key = some v →
      v.toNumber.isFinite = false → bonusKey vars key = 0) := by
  refine ⟨?_, ?_, ?_, ?_, ?_, ?_, ?_, ?_⟩
  · intro vars key h
    simp [capValueKey, h]
  · intro vars key v h hf
    unfold capValueKey
    rw [h]
    match v, hf with
    | .num .posInf, hf => simp [Value.toNumber, JSNum.isFinite] at hf
    | .num .nan, hf => simp [Value.toNumber, JSNum.isFinite] at hf
    | .num .negInf, hf => simp [Value.toNumber, JSNum.isFinite] at hf
    | .num (.num q), _ => simp [Value.toNumber, JSNum.isFinite]
    | .str s, hf => simp [hf]
    | .obj fs, hf => simp [Value.toNumber, JSNum.isFinite] at hf
    | .undef, hf => simp [Value.toNumber, JSNum.isFinite] at hf
  · intro vars key v h hf
    unfold capValueKey
    rw [h]
    match v, hf with
    | .num .posInf, hf => rfl
    | .num .nan, _ => simp [Value.toNumber, JSNum.isFinite]
    | .num .negInf, _ => simp [Value.toNumber, JSNum.isFinite]
    | .num (.num q), hf => simp [Value.toNumber, JSNum.isFinite] at hf
    | .str s, hf => simp [hf]
    | .obj fs, _ => simp [Value.toNumber, JSNum.isFinite]
    | .undef, _ => simp [Value.toNumber, JSNum.isFinite]
  · intro env f value key h
    simp [applyBuiltin, List.getD] at h
    exact h.symm
  · intro env v key h hn
    have hc : capValueKey env.vars key = .posInf := by
      simp [capValueKey, h]
    simp [applyBuiltin, List.getD, Value.toDisplay, Value.toNumber, hc,
      JSNum.orZero_eq_self v hn, JSNum.min2_posInf v hn]
  · intro vars key h
    simp [bonusKey, h, JSNum.isFinite]
  · intro vars key v h hf
    simp [bonusKey, h, hf]
  · intro vars key v h hf
    simp [bonusKey, h, hf]

/-- C6 witness: the testable-property instances — `cap(5,'k')` with empty caps
is `5`, with a cap of 2 is `2`; `bonus('k')` absent is `0`, present 1 is `1`;
a `"Infinity"` cap string passes through as unconstrained. -/
theorem claim_C6_cap_bonus_semantics_witness :
    (capValueKey [] "k" = .posInf) ∧
    (capValueKey [("caps", .obj [("k", .num 2)])] "k" = 2) ∧
    (capValueKey [("caps", .obj [("k", .str "Infinity")])] "k" = .posInf) ∧
    (applyBuiltin ⟨[], fun _ => none, ⟨1, [], [], [], [], []⟩, []⟩ "cap"
      [.num 5, .str "k"] = .ok (.num 5)) ∧
    (bonusKey [] "k" = 0) ∧
    (bonusKey [("bonuses", .obj [("k", .num 1)])] "k" = 1) := by
  refine ⟨?_, ?_, ?_, ?_, ?_, ?_⟩
  · exact claim_C6_cap_bonus_semantics.1 [] "k" rfl
  · exact claim_C6_cap_bonus_semantics.2.1 _ "k" (.num 2) rfl rfl
  · exact claim_C6_cap_bonus_semantics.2.2.1 _ "k" (.str "Infinity") rfl
      (by with_unfolding_all decide)
  · exact claim_C6_cap_bonus_semantics.2.2.2.2.1 _ 5 "k" rfl rfl
  · exact claim_C6_cap_bonus_semantics.2.2.2.2.2.1 [] "k" rfl
  · exact claim_C6_cap_bonus_semantics.2.2.2.2.2.2.1 _ "k" (.num 1) rfl rfl

/-! ### C5: lookup-table semantics -/

/-- `a <= b` implies not `b < a` (JS comparisons on numbers). -/
theorem JSNum.le_not_lt {a b : JSNum} (h : a.le b = true) : b.lt a = false := by
  cases a <;> cases b <;> simp_all [JSNum.le, JSNum.lt]

/-- `a <= b` and `a ≠ b` imply `a < b` (JS comparisons on numbers). -/
theorem JSNum.le_ne_lt {a b : JSNum} (h : a.le b = true) (hne : a ≠ b) :
    a.lt b = true := by
  cases a <;> cases b <;> simp_all [JSNum.le, JSNum.lt]
  exact lt_of_le_of_ne h (by intro hq; exact hne (by rw [hq]))

/-- `-Infinity < b` for every non-`NaN` number `b` other than `-Infinity`. -/
theorem JSNum.negInf_lt {b : JSNum} (h : b.isNaN = false) (hne : b ≠ .negInf) :
    JSNum.lt .negInf b = true := by
  cases b <;> simp_all [JSNum.isNaN, JSNum.lt]

/-- If no table entry can improve on the running best, the scan keeps the
running value. -/
theorem lookupScan_fixed (n : JSNum) (t : List (String × JSNum)) :
    ∀ best val,
      (∀ p ∈ t, (jsToNumber p.1).isNaN = false → (jsToNumber p.1).le n = true →
        best.lt (jsToNumber p.1) = false) →
      lookupScan n t best val = val := by
  induction t with
  | nil => intro best val _; rfl
  | cons hd tl ih =>
    intro best val h
    obtain ⟨tk, tv⟩ := hd
    unfold lookupScan
    have hhd := h (tk, tv) (List.mem_cons_self _ _)
    rcases hn : (jsToNumber tk).isNaN with _ | _
    · rcases hle : (jsToNumber tk).le n with _ | _
      · simp only [hn, hle, Bool.not_false, Bool.false_and, Bool.and_false,
          Bool.true_and, Bool.and_true, Bool.false_eq_true, if_neg, ite_false]
        exact ih best val (fun p hp h1 h2 => h p (List.mem_cons_of_mem _ hp) h1 h2)
      · have := hhd hn hle
        simp only [hn, hle, this, Bool.not_false, Bool.true_and, Bool.and_false,
          Bool.false_eq_true, ite_false]
        exact ih best val (fun p hp h1 h2 => h p (List.mem_cons_of_mem _ hp) h1 h2)
    · simp only [hn, Bool.not_true, Bool.false_and, Bool.false_eq_true, ite_false]
      exact ih best val (fun p hp h1 h2 => h p (List.mem_cons_of_mem _ hp) h1 h2)

/-- The scan returns the value of a maximal qualifying entry: if `p₀`
qualifies (its key parses non-`NaN` and is `<= n`), dominates every other
qualifying key, all maximal-key ties agree on the (`|| 0`) value, and the
running best is still below `p₀`'s key, the scan returns `p₀`'s value. -/
theorem lookupScan_max (n : JSNum) (t : List (String × JSNum)) (p₀ : String × JSNum) :
    ∀ best val, p₀ ∈ t →
      (jsToNumber p₀.1).isNaN = false → (jsToNumber p₀.1).le n = true →
      (∀ p ∈ t, (jsToNumber p.1).isNaN = false → (jsToNumber p.1).le n = true →
        (jsToNumber p.1).le (jsToNumber p₀.1) = true) →
      (∀ p ∈ t, (jsToNumber p.1).isNaN = false → (jsToNumber p.1).le n = true →
        jsToNumber p.1 = jsToNumber p₀.1 → p.2.orZero = p₀.2.orZero) →
      best.lt (jsToNumber p₀.1) = true →
      lookupScan n t best val = p₀.2.orZero := by
  induction t with
  | nil => intro best val hmem; cases hmem
  | cons hd tl ih =>
    intro best val hmem hnan hle hmax hties hbest
    obtain ⟨tk, tv⟩ := hd
    unfold lookupScan
    by_cases hcond : (!(jsToNumber tk).isNaN && (jsToNumber tk).le n
        && best.lt (jsToNumber tk)) = true
    · simp only [hcond, if_true, ite_true]
      have hq1 : (jsToNumber tk).isNaN = false := by
        rcases Bool.and_eq_true_iff.mp hcond with ⟨h1, _⟩
        rcases Bool.and_eq_true_iff.mp h1 with ⟨ha, _⟩
        simpa using ha
      have hq2 : (jsToNumber tk).le n = true := by
        rcases Bool.and_eq_true_iff.mp hcond with ⟨h1, _⟩
        exact (Bool.and_eq_true_iff.mp h1).2
      have hdom := hmax (tk, tv) (List.mem_cons_self _ _) hq1 hq2
      by_cases heq : jsToNumber tk = jsToNumber p₀.1
      · have hval := hties (tk, tv) (List.mem_cons_self _ _) hq1 hq2 heq
        rw [show tv.orZero = p₀.2.orZero from hval]
        apply lookupScan_fixed
        intro p hp h1 h2
        have := hmax p (List.mem_cons_of_mem _ hp) h1 h2
        rw [heq]
        exact JSNum.le_not_lt this
      · have hlt : (jsToNumber tk).lt (jsToNumber p₀.1) = true :=
          JSNum.le_ne_lt hdom heq
        have hp₀tl : p₀ ∈ tl := by
          rcases List.mem_cons.mp hmem with h | h
          · exact absurd (by rw [h]) heq
          · exact h
        exact ih (jsToNumber tk) tv.orZero hp₀tl hnan hle
          (fun p hp h1 h2 => hmax p (List.mem_cons_of_mem _ hp) h1 h2)
          (fun p hp h1 h2 h3 => hties p (List.mem_cons_of_mem _ hp) h1 h2 h3) hlt
    · simp only [hcond, Bool.false_eq_true, if_neg, ite_false]
      have hp₀tl : p₀ ∈ tl := by
        rcases List.mem_cons.mp hmem with h | h
        · exfalso
          apply hcond
          rw [h] at hnan hle hbest
          simp only [Prod.fst] at hnan hle hbest
          simp [hnan, hle, hbest]
        · exact h
      exact ih best val hp₀tl hnan hle
        (fun p hp h1 h2 => hmax p (List.mem_cons_of_mem _ hp) h1 h2)
        (fun p hp h1 h2 h3 => hties p (List.mem_cons_of_mem _ hp) h1 h2 h3) hbest

/-- C5: `lookup(table, key)` returns the table's value on an exact string-key
match; otherwise, for a numeric key, the value of the greatest
numeric-parsing table key `<=` the key; and `0` when the table does not
exist, or the key is non-numeric with no exact match, or no qualifying
numeric key exists.  On the sample table `{"1":2,"5":3,"9":4}`, keys
1, 7, 9, 0 yield 2, 3, 4, 0. -/
theorem claim_C5_lookup_semantics :
    (∀ tables tname t k v, aget tables tname = some t → aget t k = some v →
      lookupFn tables (.str tname) (.str k) = v.orZero) ∧
    (∀ tables tname t k v, aget tables tname = some t → aget t k = some v →
      v.isNaN = false → lookupFn tables (.str tname) (.str k) = v) ∧
    (∀ tables tname k, aget tables tname = none →
      lookupFn tables (.str tname) (.str k) = 0) ∧
    (∀ tables tname t k, aget tables tname = some t → aget t k = none →
      (jsToNumber k).isNaN = true → lookupFn tables (.str tname) (.str k) = 0) ∧
    (∀ tables tname t k, aget tables tname = some t → aget t k = none →
      (jsToNumber k).isNaN = false →
      (∀ p ∈ t, ¬((jsToNumber p.1).isNaN = false ∧
        (jsToNumber p.1).le (jsToNumber k) = true)) →
      lookupFn tables (.str tname) (.str k) = 0) ∧
    (∀ tables tname t k p₀, aget tables tname = some t → aget t k = none →
      (jsToNumber k).isNaN = false → p₀ ∈ t →
      (jsToNumber p₀.1).isNaN = false → (jsToNumber p₀.1).le (jsToNumber k) = true →
      jsToNumber p₀.1 ≠ .negInf →
      (∀ p ∈ t, (jsToNumber p.1).isNaN = false →
        (jsToNumber p.1).le (jsToNumber k) = true →
        (jsToNumber p.1).le (jsToNumber p₀.1) = true) →
      (∀ p ∈ t, (jsToNumber p.1).isNaN = false →
        (jsToNumber p.1).le (jsToNumber k) = true →
        jsToNumber p.1 = jsToNumber p₀.1 → p.2.orZero = p₀.2.orZero) →
      lookupFn tables (.str tname) (.str k) = p₀.2.orZero) ∧
    (lookupFn [("t", [("1", 2), ("5", 3), ("9", 4)])] (.str "t") (.num 1) = 2) ∧
    (lookupFn [("t", [("1", 2), ("5", 3), ("9", 4)])] (.str "t") (.num 7) = 3) ∧
    (lookupFn [("t", [("1", 2), ("5", 3), ("9", 4)])] (.str "t") (.num 9) = 4) ∧
    (lookupFn [("t", [("1", 2), ("5", 3), ("9", 4)])] (.str "t") (.num 0) = 0) := by
  have hexact : ∀ tables tname t k v, aget tables tname = some t → aget t k = some v →
      lookupFn tables (.str tname) (.str k) = v.orZero := by
    intro tables tname t k v ht hv
    simp [lookupFn, Value.toDisplay, ht, hv]
  refine ⟨hexact, ?_, ?_, ?_, ?_, ?_, ?_, ?_, ?_, ?_⟩
  · intro tables tname t k v ht hv hn
    rw [hexact tables tname t k v ht hv, JSNum.orZero_eq_self v hn]
  · intro tables tname k ht
    simp [lookupFn, Value.toDisplay, ht]
  · intro tables tname t k ht hk hnan
    simp [lookupFn, Value.toDisplay, ht, hk, hnan]
  · intro tables tname t k ht hk hnan hq
    simp only [lookupFn, Value.toDisplay, ht, hk, hnan, Bool.false_eq_true, ite_false]
    apply lookupScan_fixed
    intro p hp h1 h2
    exact absurd ⟨h1, h2⟩ (hq p hp)
  · intro tables tname t k p₀ ht hk hnan hmem h1 h2 hne hmax hties
    simp only [lookupFn, Value.toDisplay, ht, hk, hnan, Bool.false_eq_true, ite_false]
    exact lookupScan_max (jsToNumber k) t p₀ .negInf 0 hmem h1 h2 hmax hties
      (JSNum.negInf_lt h1 hne)
  · with_unfolding_all decide
  · with_unfolding_all decide
  · with_unfolding_all decide
  · with_unfolding_all decide

/-- C5 witness: each hypothesis-bearing conjunct applied to the sample table
(`{"1":2,"5":3,"9":4}` under name `"t"`): exact match at `"1"`, missing table,
non-numeric key with no exact match, nearest-lower at `"7"`, and below-lowest
at `"0"`. -/
theorem claim_C5_lookup_semantics_witness :
    (lookupFn [("t", [("1", 2), ("5", 3), ("9", 4)])] (.str "t") (.str "1")
      = JSNum.orZero 2) ∧
    (lookupFn [("t", [("1", 2), ("5", 3), ("9", 4)])] (.str "t") (.str "1") = 2) ∧
    (lookupFn [("t", [("1", 2), ("5", 3), ("9", 4)])] (.str "nope") (.str "1") = 0) ∧
    (lookupFn [("t", [("1", 2), ("5", 3), ("9", 4)])] (.str "t") (.str "zzz") = 0) ∧
    (lookupFn [("t", [("1", 2), ("5", 3), ("9", 4)])] (.str "t") (.str "0") = 0) ∧
    (lookupFn [("t", [("1", 2), ("5", 3), ("9", 4)])] (.str "t") (.str "7")
      = JSNum.orZero 3) := by
  refine ⟨?_, ?_, ?_, ?_, ?_, ?_⟩
  · exact claim_C5_lookup_semantics.1 _ "t" _ "1" 2 rfl rfl
  · exact claim_C5_lookup_semantics.2.1 _ "t" _ "1" 2 rfl rfl rfl
  · exact claim_C5_lookup_semantics.2.2.1 _ "nope" "1" rfl
  · exact claim_C5_lookup_semantics.2.2.2.1 _ "t" _ "zzz" rfl rfl
      (by with_unfolding_all decide)
  · exact claim_C5_lookup_semantics.2.2.2.2.1 _ "t" _ "0" rfl rfl
      (by with_unfolding_all decide) (by with_unfolding_all decide)
  · exact claim_C5_lookup_semantics.2.2.2.2.2.1 _ "t" _ "7" ("5", 3) rfl rfl
      (by with_unfolding_all decide) (by with_unfolding_all decide)
      (by with_unfolding_all decide) (by with_unfolding_all decide)
      (by with_unfolding_all decide) (by with_unfolding_all decide)
      (by with_unfolding_all decide)

/-! ### C10: equip guard conditions -/

/-- The successful-equip write: the instance id into position `idx` of the
named slot. -/
def equipWrite (c : Character) (slotId : String) (slot : Slot) (idx : ℕ)
    (instanceId : String) : Character :=
  { c with slots := aset c.slots slotId ⟨slot.max, slot.equipped.set idx (some instanceId)⟩ }

/-- C10: `equip` returns the character unchanged (the source's early return,
before any recompute) when the instance id matches no inventory item, when
the slot id names no slot, or when the slot's equipped array has no `null`
position; and only when an item, the slot and a free position all exist does
it write the id into the first `null` position and recompute. -/
theorem claim_C10_equip_guards :
    (∀ c pack E instanceId slotId, findItemByInstance c instanceId = none →
      equip c pack E instanceId slotId = c) ∧
    (∀ c pack E instanceId slotId, aget c.slots slotId = none →
      equip c pack E instanceId slotId = c) ∧
    (∀ c pack E instanceId slotId slot, aget c.slots slotId = some slot →
      (∀ e ∈ slot.equipped, e ≠ none) →
      equip c pack E instanceId slotId = c) ∧
    (∀ c pack E instanceId slotId item slot idx,
      findItemByInstance c instanceId = some item →
      aget c.slots slotId = some slot →
      slot.equipped.findIdx? (·.isNone) = some idx →
      equip c pack E instanceId slotId =
        recompute (equipWrite c slotId slot idx instanceId) pack E) := by
  refine ⟨?_, ?_, ?_, ?_⟩
  · intro c pack E instanceId slotId h
    simp [equip, h]
  · intro c pack E instanceId slotId h
    unfold equip
    cases hfi : findItemByInstance c instanceId with
    | none => rfl
    | some item => simp [h]
  · intro c pack E instanceId slotId slot hs hfull
    have hidx : slot.equipped.findIdx? (fun e => e.isNone) = none := by
      rw [List.findIdx?_eq_none_iff]
      intro e he
      cases e with
      | none => exact absurd rfl (hfull none he)
      | some s => rfl
    unfold equip
    cases hfi : findItemByInstance c instanceId with
    | none => rfl
    | some item => simp [hs, hidx]
  · intro c pack E instanceId slotId item slot idx hi hs hidx
    simp [equip, hi, hs, hidx, equipWrite]

/-- Witness character for the equip guards: one inventory item `i1`, a free
slot `hand`, and a full slot `full`. -/
def witnessC10 : Character :=
  { id := "", name := "", systemId := "sys", level := 1, createdAt := "", updatedAt := ""
    attr := [], res := [], prof := [], derived := []
    inventory := ⟨"weight_limit", 36, 0, [⟨"i1", "c", "l", none, [], none, none, none⟩], 0⟩
    slots := [("hand", ⟨1, [none]⟩), ("full", ⟨1, [some "x"]⟩)]
    tags := [], notes := none }

/-- C10 witness: a two-slot character with one item — equip with a bad id,
a bad slot, a full slot, and a successful equip into the first free
position. -/
theorem claim_C10_equip_guards_witness :
    (∀ pack E, equip witnessC10 pack E "ghost" "hand" = witnessC10) ∧
    (∀ pack E, equip witnessC10 pack E "i1" "nope" = witnessC10) ∧
    (∀ pack E, equip witnessC10 pack E "i1" "full" = witnessC10) ∧
    (∀ pack E, equip witnessC10 pack E "i1" "hand" =
      recompute (equipWrite witnessC10 "hand" ⟨1, [none]⟩ 0 "i1") pack E) := by
  refine ⟨?_, ?_, ?_, ?_⟩
  · intro pack E
    exact claim_C10_equip_guards.1 _ pack E "ghost" "hand" rfl
  · intro pack E
    exact claim_C10_equip_guards.2.1 _ pack E "i1" "nope" rfl
  · intro pack E
    exact claim_C10_equip_guards.2.2.1 _ pack E "i1" "full" ⟨1, [some "x"]⟩ rfl
      (by intro e he; simp at he; simp [he])
  · intro pack E
    exact claim_C10_equip_guards.2.2.2 _ pack E "i1" "hand"
      ⟨"i1", "c", "l", none, [], none, none, none⟩ ⟨1, [none]⟩ 0 rfl rfl rfl

/-! ### C8: attribute construction at createCharacter -/

/-- A key that is not in the map reads as absent. -/
theorem aget_eq_none_of_not_mem (m : List (String × α)) (k : String)
    (h : k ∉ akeys m) : aget m k = none := by
  induction m with
  | nil => rfl
  | cons hd tl ih =>
    obtain ⟨k₀, v₀⟩ := hd
    simp [akeys] at h
    simp [aget, List.find?, Ne.symm h.1]
    have := ih (by simp [akeys]; exact h.2)
    simpa [aget] using this

/-- Reading a spread merge `{...m, ...seeds}`: a seeded key (seeds with
unique keys) reads its seed value, any other key reads from `m`. -/
theorem spreadMerge_aget (seeds : List (String × α)) :
    ∀ (m : List (String × α)) (k : String), (akeys seeds).Nodup →
      aget (spreadMerge m seeds) k =
        match aget seeds k with
        | some v => some v
        | none => aget m k := by
  induction seeds with
  | nil => intro m k _; rfl
  | cons hd tl ih =>
    intro m k hnd
    obtain ⟨k₀, v₀⟩ := hd
    simp [akeys] at hnd
    have step : spreadMerge m ((k₀, v₀) :: tl) = spreadMerge (aset m k₀ v₀) tl := rfl
    rw [step, ih (aset m k₀ v₀) k hnd.2]
    by_cases hk : k₀ = k
    · subst hk
      have hnone : aget tl k₀ = none :=
        aget_eq_none_of_not_mem tl k₀ (by simpa [akeys] using hnd.1)
      have hcons : aget ((k₀, v₀) :: tl) k₀ = some v₀ := by
        simp [aget, List.find?]
      rw [hnone, hcons, aget_aset_self]
    · have hcons : aget ((k₀, v₀) :: tl) k = aget tl k := by
        simp [aget, List.find?, hk]
      rw [hcons, aget_aset_ne m k₀ k v₀ hk]

/-- A fold of per-entry upserts leaves keys it never writes untouched. -/
theorem foldl_aset_untouched {α β : Type} (key : α → String) (g : α → β)
    (l : List α) :
    ∀ (init : List (String × β)) (k : String), (∀ x ∈ l, key x ≠ k) →
      aget (l.foldl (fun m x => aset m (key x) (g x)) init) k = aget init k := by
  induction l with
  | nil => intro init k _; rfl
  | cons hd tl ih =>
    intro init k h
    have step : ((hd :: tl).foldl (fun m x => aset m (key x) (g x)) init)
        = tl.foldl (fun m x => aset m (key x) (g x)) (aset init (key hd) (g hd)) := rfl
    rw [step, ih _ k (fun x hx => h x (List.mem_cons_of_mem _ hx))]
    exact aget_aset_ne init (key hd) k (g hd) (h hd (List.mem_cons_self _ _))

/-- A fold of per-entry upserts with pairwise-distinct keys assigns each
entry its own value. -/
theorem foldl_aset_aget {α β : Type} (key : α → String) (g : α → β)
    (l : List α) :
    ∀ (init : List (String × β)) (a : α), a ∈ l → (l.map key).Nodup →
      aget (l.foldl (fun m x => aset m (key x) (g x)) init) (key a) = some (g a) := by
  induction l with
  | nil => intro init a h; cases h
  | cons hd tl ih =>
    intro init a hmem hnd
    simp at hnd
    have step : ((hd :: tl).foldl (fun m x => aset m (key x) (g x)) init)
        = tl.foldl (fun m x => aset m (key x) (g x)) (aset init (key hd) (g hd)) := rfl
    rcases List.mem_cons.mp hmem with h | h
    · subst h
      rw [step, foldl_aset_untouched key g tl _ (key a)
        (fun x hx hk => hnd.1 x hx hk)]
      exact aget_aset_self init (key a) (g a)
    · rw [step]
      exact ih _ a h hnd.2

/-- C8: for every schema-declared attribute, `createCharacter` sets the
attribute to the raw seed value when one is supplied (the lodash merge after
the loop overwrites the clamped value, so the seed is not re-clamped), and
otherwise to the schema default (fallback 10) clamped into `[min, max]`. -/
theorem claim_C8_attribute_seeding (pack : LoadedPack) (E : Evaluator)
    (options : CreateCharacterOptions) (c : Character) (a : PackSchemaAttribute)
    (hc : createCharacter pack E options = some c)
    (hmem : a ∈ (pack.schema.map (·.attributes)).getD [])
    (hnd : (((pack.schema.map (·.attributes)).getD []).map (·.id)).Nodup)
    (hsd : (akeys options.seedAttributes).Nodup) :
    (∀ v, aget options.seedAttributes a.id = some v → aget c.attr a.id = some v) ∧
    (aget options.seedAttributes a.id = none →
      aget c.attr a.id = some (clampOpt (a.default.getD 10) a.min a.max)) := by
  have hattr : c.attr = spreadMerge
      (((pack.schema.map (·.attributes)).getD []).foldl (fun attr x =>
        aset attr x.id (clampOpt ((aget options.seedAttributes x.id).getD
          (x.default.getD 10)) x.min x.max)) [])
      options.seedAttributes := by
    unfold createCharacter at hc
    cases hmd : pack.metadata with
    | none => rw [hmd] at hc; cases hc
    | some md =>
      rw [hmd] at hc
      by_cases hid : md.id = ""
      · simp [hid] at hc
      · simp only [hid, if_false, ite_false, Option.some.injEq] at hc
        subst hc
        rfl
  constructor
  · intro v hv
    rw [hattr, spreadMerge_aget options.seedAttributes _ a.id hsd, hv]
  · intro hv
    rw [hattr, spreadMerge_aget options.seedAttributes _ a.id hsd, hv]
    simpa [hv] using foldl_aset_aget (fun x : PackSchemaAttribute => x.id)
      (fun x => clampOpt ((aget options.seedAttributes x.id).getD
        (x.default.getD 10)) x.min x.max)
      ((pack.schema.map (·.attributes)).getD []) [] a hmem hnd

/-- Pack for the C8 witness: `dex` with bounds `[1, 30]` and default 16,
`str` with bound `[1, 20]` and default 99. -/
def witnessPackC8 : LoadedPack :=
  { metadata := some ⟨"sys"⟩
    schema := some
      { attributes := [⟨"dex", some 1, some 30, some 16⟩, ⟨"str", some 1, some 20, some 99⟩]
        resources := [], proficiencyCategories := [], itemSlots := []
        inventory := none, tags := [], derived := [] }
    mechanics := none, rules := none, content := none }

/-- C8 witness: seeding `dex := 55` lands unclamped at 55 while the unseeded
`str` default 99 is clamped to 20. -/
theorem claim_C8_attribute_seeding_witness :
    ∃ c, createCharacter witnessPackC8 (fun _ _ => 0)
        ⟨none, none, [("dex", 55)], [], [], none, none, []⟩ = some c ∧
      aget c.attr "dex" = some 55 ∧ aget c.attr "str" = some 20 := by
  refine ⟨_, rfl, ?_, ?_⟩
  · exact (claim_C8_attribute_seeding witnessPackC8 (fun _ _ => 0)
      ⟨none, none, [("dex", 55)], [], [], none, none, []⟩ _
      ⟨"dex", some 1, some 30, some 16⟩ rfl (by simp [witnessPackC8])
      (by simp [witnessPackC8]) (by simp [akeys])).1 55 rfl
  · have h := (claim_C8_attribute_seeding witnessPackC8 (fun _ _ => 0)
      ⟨none, none, [("dex", 55)], [], [], none, none, []⟩ _
      ⟨"str", some 1, some 20, some 99⟩ rfl (by simp [witnessPackC8])
      (by simp [witnessPackC8]) (by simp [akeys])).2 rfl
    rw [h]
    with_unfolding_all decide

/-! ### C1: resource bounds -/

/-- `0 <= a` rules out `NaN`. -/
theorem JSNum.not_nan_of_zero_le {a : JSNum} (h : JSNum.le 0 a = true) :
    a.isNaN = false := by
  cases a <;> simp_all [JSNum.le, JSNum.isNaN]

/-- `min(a, b) <= b` for non-`NaN` operands. -/
theorem JSNum.min2_le_right {a b : JSNum} (ha : a.isNaN = false)
    (hb : b.isNaN = false) : (JSNum.min2 a b).le b = true := by
  cases a <;> cases b <;> simp_all [JSNum.min2, JSNum.le, JSNum.isNaN]

/-- `min` preserves nonnegativity. -/
theorem JSNum.min2_nonneg {a b : JSNum} (ha : JSNum.le 0 a = true)
    (hb : JSNum.le 0 b = true) : JSNum.le 0 (JSNum.min2 a b) = true := by
  cases a <;> cases b <;> simp_all [JSNum.min2, JSNum.le]

/-- `max(0, x)` is nonnegative for non-`NaN` `x`. -/
theorem JSNum.zero_le_max2_zero {x : JSNum} (hx : x.isNaN = false) :
    JSNum.le 0 (JSNum.max2 0 x) = true := by
  cases x <;> simp_all [JSNum.max2, JSNum.le, JSNum.isNaN]

/-- `floor` of a finite number is not `NaN`. -/
theorem JSNum.floor_not_nan_of_finite {x : JSNum} (hx : x.isFinite = true) :
    x.floor.isNaN = false := by
  cases x <;> simp_all [JSNum.floor, JSNum.isNaN, JSNum.isFinite]

/-- A resource entry with its `current` clamped into `[0, max]`. -/
def Resource.WithinBounds (r : Resource) : Prop :=
  JSNum.le 0 r.current = true ∧ r.current.le r.max = true

/-- The resource loop of `recalcCharacter`, generic in the per-step new-max
computation `f` (which may read the map built so far, as the live context
does).  If every `f` result is nonnegative and every entry of the initial map
has a nonnegative `current`, then after the fold (1) every `current` is still
nonnegative, (2) in-bounds entries stay in bounds, and (3) every processed
resource id holds an in-bounds entry. -/
theorem recalcResLoop_bounds
    (f : List (String × Resource) → PackSchemaResource → JSNum)
    (hf : ∀ m rd, JSNum.le 0 (f m rd) = true) (rs : List PackSchemaResource) :
    ∀ m : List (String × Resource),
      (∀ k r, aget m k = some r → JSNum.le 0 r.current = true) →
      (∀ k r, aget (rs.foldl (fun m rd => aset m rd.id
          ⟨JSNum.min2 (((aget m rd.id).map (·.current)).getD (f m rd)) (f m rd),
            f m rd⟩) m) k = some r → JSNum.le 0 r.current = true) ∧
      (∀ k r, aget m k = some r → r.WithinBounds →
        ∃ r', aget (rs.foldl (fun m rd => aset m rd.id
          ⟨JSNum.min2 (((aget m rd.id).map (·.current)).getD (f m rd)) (f m rd),
            f m rd⟩) m) k = some r' ∧ r'.WithinBounds) ∧
      (∀ rd ∈ rs, ∃ r, aget (rs.foldl (fun m rd => aset m rd.id
          ⟨JSNum.min2 (((aget m rd.id).map (·.current)).getD (f m rd)) (f m rd),
            f m rd⟩) m) rd.id = some r ∧ r.WithinBounds) := by
  induction rs with
  | nil =>
    intro m h0
    refine ⟨h0, ?_, ?_⟩
    · intro k r hk hw; exact ⟨r, hk, hw⟩
    · intro rd h; cases h
  | cons rd₀ rest ih =>
    intro m h0
    set newMax := f m rd₀ with hnewMax
    have hnm : JSNum.le 0 newMax = true := hf m rd₀
    have harg : JSNum.le 0 (((aget m rd₀.id).map (·.current)).getD newMax) = true := by
      cases hm : aget m rd₀.id with
      | none => simpa [hm] using hnm
      | some r => simpa [hm] using h0 rd₀.id r hm
    have hcur : JSNum.le 0
        (JSNum.min2 (((aget m rd₀.id).map (·.current)).getD newMax) newMax) = true :=
      JSNum.min2_nonneg harg hnm
    have hbnd : (Resource.mk
        (JSNum.min2 (((aget m rd₀.id).map (·.current)).getD newMax) newMax)
        newMax).WithinBounds := by
      refine ⟨hcur, ?_⟩
      exact JSNum.min2_le_right (JSNum.not_nan_of_zero_le harg)
        (JSNum.not_nan_of_zero_le hnm)
    have h0' : ∀ k r, aget (aset m rd₀.id
        ⟨JSNum.min2 (((aget m rd₀.id).map (·.current)).getD newMax) newMax, newMax⟩)
        k = some r → JSNum.le 0 r.current = true := by
      intro k r hk
      by_cases hkk : rd₀.id = k
      · subst hkk
        rw [aget_aset_self] at hk
        cases hk
        exact hcur
      · rw [aget_aset_ne _ _ _ _ hkk] at hk
        exact h0 k r hk
    obtain ⟨ihA, ihB, ihC⟩ := ih _ h0'
    refine ⟨ihA, ?_, ?_⟩
    · intro k r hk hw
      by_cases hkk : rd₀.id = k
      · subst hkk
        exact ihB rd₀.id _ (aget_aset_self _ _ _) hbnd
      · exact ihB k r (by rw [aget_aset_ne _ _ _ _ hkk]; exact hk) hw
    · intro rd hrd
      rcases List.mem_cons.mp hrd with h | h
      · subst h
        exact ihB rd.id _ (aget_aset_self _ _ _) hbnd
      · exact ihC rd h

/-- The resource map produced by `recalcCharacter`, in the generic-fold
shape. -/
theorem recalcCharacter_res (c : Character) (pack : LoadedPack) (E : Evaluator)
    (vars : List (String × Value)) :
    (recalcCharacter c pack E vars).res =
      ((pack.schema.map (·.resources)).getD []).foldl (fun m rd => aset m rd.id
        ⟨JSNum.min2 (((aget m rd.id).map (·.current)).getD
          (JSNum.max2 0 (E (rd.defaultMaxFormula.getD "0")
            ⟨c.level, c.attr, m, c.prof, c.derived, vars⟩).floor))
          (JSNum.max2 0 (E (rd.defaultMaxFormula.getD "0")
            ⟨c.level, c.attr, m, c.prof, c.derived, vars⟩).floor),
          JSNum.max2 0 (E (rd.defaultMaxFormula.getD "0")
            ⟨c.level, c.attr, m, c.prof, c.derived, vars⟩).floor⟩) c.res := rfl

/-- C1 (amended): after `recalcCharacter` with an evaluator that always
returns finite numbers (which the pack evaluator does) and a character whose
resource currents are all nonnegative, every schema-declared resource holds
an entry with `0 <= current <= max` — in particular a `current` above a
lowered max is clamped down.  (As stated over `createCharacter` the original
claim fails: creation does not clamp a seeded `current` down to `max`; see
the counterexample.) -/
theorem claim_C1_recalc_resource_bounds (c : Character) (pack : LoadedPack)
    (E : Evaluator) (vars : List (String × Value))
    (hE : ∀ e ctx, (E e ctx).isFinite = true)
    (h0 : ∀ k r, aget c.res k = some r → JSNum.le 0 r.current = true) :
    ∀ rd ∈ (pack.schema.map (·.resources)).getD [],
      ∃ r, aget (recalcCharacter c pack E vars).res rd.id = some r ∧
        JSNum.le 0 r.current = true ∧ r.current.le r.max = true := by
  intro rd hrd
  have hf : ∀ (m : List (String × Resource)) (rd : PackSchemaResource),
      JSNum.le 0 (JSNum.max2 0 (E (rd.defaultMaxFormula.getD "0")
        ⟨c.level, c.attr, m, c.prof, c.derived, vars⟩).floor) = true := by
    intro m rd
    exact JSNum.zero_le_max2_zero (JSNum.floor_not_nan_of_finite (hE _ _))
  have h := (recalcResLoop_bounds _ hf ((pack.schema.map (·.resources)).getD [])
    c.res h0).2.2 rd hrd
  rw [recalcCharacter_res]
  exact h

/-- Witness pack for C1: one schema resource `hp` with max formula `"5"`. -/
def witnessPackC1 : LoadedPack :=
  { metadata := some ⟨"sys"⟩
    schema := some
      { attributes := [], resources := [⟨"hp", some "10"⟩]
        proficiencyCategories := [], itemSlots := [], inventory := none
        tags := [], derived := [] }
    mechanics := none, rules := none, content := none }

/-- Witness character for C1: `hp` holds `current = 50` above `max = 10`. -/
def witnessCharC1 : Character :=
  { id := "", name := "", systemId := "sys", level := 1, createdAt := "", updatedAt := ""
    attr := [], res := [("hp", ⟨50, 10⟩)], prof := [], derived := []
    inventory := ⟨"weight_limit", 36, 0, [], 0⟩, slots := [], tags := [], notes := none }

/-- C1 witness: recalc against the constant-5 evaluator clamps `hp` down into
`[0, 5]`. -/
theorem claim_C1_recalc_resource_bounds_witness :
    ∃ r, aget (recalcCharacter witnessCharC1 witnessPackC1 (fun _ _ => 5) []).res "hp"
      = some r ∧ JSNum.le 0 r.current = true ∧ r.current.le r.max = true := by
  refine claim_C1_recalc_resource_bounds witnessCharC1 witnessPackC1 (fun _ _ => 5) []
    (fun _ _ => rfl) ?_ ⟨"hp", some "10"⟩ (by simp [witnessPackC1])
  intro k r hk
  by_cases h : "hp" = k
  · subst h
    have hr : (⟨50, 10⟩ : Resource) = r := by
      simpa [witnessCharC1, aget, List.find?] using hk
    rw [← hr]
    with_unfolding_all decide
  · simp [witnessCharC1, aget, List.find?, h] at hk

/-- C1 counterexample: `createCharacter` with a seeded `current` of 50 and a
computed max of 10 leaves `current > max` in place — the claimed invariant
does not hold immediately after creation. -/
theorem claim_C1_counterexample :
    ∃ c, createCharacter witnessPackC1
        (evaluateU [] (fun _ => none)
          (fun s => if s = "10" then some (.lit 10) else none))
        ⟨none, none, [], [("hp", ⟨some 50, none⟩)], [], none, none, []⟩ = some c ∧
      aget c.res "hp" = some ⟨50, 10⟩ ∧
      (JSNum.le (50 : JSNum) (10 : JSNum)) = false := by
  refine ⟨_, rfl, ?_, ?_⟩
  · with_unfolding_all decide
  · with_unfolding_all decide

/-! ### C9: the compiled-expression LRU cache -/

/-- Reading past a non-matching head. -/
theorem aget_cons_ne (k₀ : String) (v₀ : α) (tl : List (String × α)) (k : String)
    (hk : k₀ ≠ k) : aget ((k₀, v₀) :: tl) k = aget tl k := by
  simp [aget, List.find?, hk]

/-- Reading the head. -/
theorem aget_cons_self (k : String) (v : α) (tl : List (String × α)) :
    aget ((k, v) :: tl) k = some v := by
  simp [aget, List.find?]

/-- A successful read exhibits its entry. -/
theorem aget_mem (m : List (String × α)) (k : String) (v : α)
    (h : aget m k = some v) : (k, v) ∈ m := by
  induction m with
  | nil => cases h
  | cons hd tl ih =>
    obtain ⟨k₀, v₀⟩ := hd
    by_cases hk : k₀ = k
    · subst hk
      rw [aget_cons_self] at h
      cases h
      exact List.mem_cons_self _ _
    · rw [aget_cons_ne _ _ _ _ hk] at h
      exact List.mem_cons_of_mem _ (ih h)

/-- A key present in the key list reads successfully. -/
theorem aget_isSome_of_mem_keys (m : List (String × α)) (k : String)
    (h : k ∈ akeys m) : (aget m k).isSome = true := by
  induction m with
  | nil => cases h
  | cons hd tl ih =>
    obtain ⟨k₀, v₀⟩ := hd
    by_cases hk : k₀ = k
    · subst hk
      rw [aget_cons_self]
      rfl
    · rw [aget_cons_ne _ _ _ _ hk]
      rw [akeys, List.map_cons] at h
      rcases List.mem_cons.mp h with h | h
      · exact absurd h.symm hk
      · exact ih h

/-- A failed read means the key is absent. -/
theorem not_mem_keys_of_aget_none (m : List (String × α)) (k : String)
    (h : aget m k = none) : k ∉ akeys m := by
  intro hmem
  have := aget_isSome_of_mem_keys m k hmem
  rw [h] at this
  cases this

/-- Erasing keeps only entries of the original map. -/
theorem mem_of_mem_aerase {m : List (String × α)} {k : String} {p : String × α}
    (h : p ∈ aerase m k) : p ∈ m :=
  List.mem_of_mem_filter h

/-- `aerase` is a sublist. -/
theorem aerase_sublist (m : List (String × α)) (k : String) :
    (aerase m k).Sublist m := List.filter_sublist m

/-- The erased key is gone from the key list. -/
theorem not_mem_akeys_aerase (m : List (String × α)) (k : String) :
    k ∉ akeys (aerase m k) := by
  intro h
  rw [akeys] at h
  obtain ⟨p, hp, hk⟩ := List.mem_map.mp h
  have h2 := List.of_mem_filter hp
  simp [hk] at h2

/-- Erasing preserves key uniqueness. -/
theorem akeys_aerase_nodup {m : List (String × α)} (h : (akeys m).Nodup)
    (k : String) : (akeys (aerase m k)).Nodup :=
  ((aerase_sublist m k).map Prod.fst).nodup h

/-- Erasing an absent key is the identity. -/
theorem aerase_of_not_mem {m : List (String × α)} {k : String}
    (h : k ∉ akeys m) : aerase m k = m := by
  apply List.filter_eq_self.mpr
  intro p hp
  have hne : p.1 ≠ k := by
    intro hpk
    exact h (by rw [akeys, ← hpk]; exact List.mem_map_of_mem _ hp)
  simpa using hne

/-- Erasing the head's key from a unique-key map drops exactly the head. -/
theorem aerase_cons_self (k₀ : String) (v₀ : α) (t : List (String × α))
    (hnd : k₀ ∉ akeys t) : aerase ((k₀, v₀) :: t) k₀ = t := by
  have h1 : aerase ((k₀, v₀) :: t) k₀ = aerase t k₀ := by
    simp [aerase, List.filter_cons]
  rw [h1, aerase_of_not_mem hnd]

/-- Erasing a present key from a unique-key map shortens it by one. -/
theorem aerase_length {m : List (String × α)} (hnd : (akeys m).Nodup)
    {k : String} {v : α} (h : aget m k = some v) :
    (aerase m k).length + 1 = m.length := by
  induction m with
  | nil => cases h
  | cons hd tl ih =>
    obtain ⟨k₀, v₀⟩ := hd
    rw [akeys, List.map_cons, List.nodup_cons] at hnd
    by_cases hk : k₀ = k
    · subst hk
      rw [aerase_cons_self k₀ v₀ tl (by simpa [akeys] using hnd.1)]
      simp
    · have hstep : aerase ((k₀, v₀) :: tl) k = (k₀, v₀) :: aerase tl k := by
        simp [aerase, List.filter_cons, hk]
      rw [hstep]
      simp only [List.length_cons]
      rw [aget_cons_ne k₀ v₀ tl k hk] at h
      rw [ih (by simpa [akeys] using hnd.2) h]

/-- Well-formedness of the compiled-expression cache with respect to the
parser: every entry caches the parse of its own key, keys are unique, and
the size respects the capacity (whose floor is 8). -/
structure LRUWF (parse : String → Option Expr) (c : TinyLRU) : Prop where
  cached : ∀ p ∈ c.map, parse p.1 = some p.2
  nodup : (akeys c.map).Nodup
  size : c.map.length ≤ c.cap
  capacity : 8 ≤ c.cap

/-- `set` never changes the capacity. -/
theorem lruSet_cap (c : TinyLRU) (k : String) (v : Expr) :
    (TinyLRU.set c k v).cap = c.cap := by
  simp only [TinyLRU.set]
  repeat' split
  all_goals rfl

/-- A cache hit returns the cached parse and moves the entry to the
most-recently-used (last) position, preserving well-formedness. -/
theorem lruGet_hit (parse : String → Option Expr) (c : TinyLRU) (k : String)
    (ast : Expr) (hWF : LRUWF parse c) (h : aget c.map k = some ast) :
    TinyLRU.get c k = (some ast, ⟨c.cap, aerase c.map k ++ [(k, ast)]⟩) ∧
    LRUWF parse ⟨c.cap, aerase c.map k ++ [(k, ast)]⟩ := by
  constructor
  · simp [TinyLRU.get, h]
  · refine ⟨?_, ?_, ?_, hWF.capacity⟩
    · intro p hp
      rcases List.mem_append.mp hp with hp | hp
      · exact hWF.cached p (mem_of_mem_aerase hp)
      · simp at hp
        subst hp
        exact hWF.cached (k, ast) (aget_mem _ _ _ h)
    · show (akeys (aerase c.map k ++ [(k, ast)])).Nodup
      rw [akeys, List.map_append]
      refine List.Nodup.append (akeys_aerase_nodup hWF.nodup k) (by simp) ?_
      intro a ha hb
      simp at hb
      subst hb
      exact not_mem_akeys_aerase c.map a ha
    · show (aerase c.map k ++ [(k, ast)]).length ≤ c.cap
      simp only [List.length_append, List.length_cons, List.length_nil]
      have h1 := aerase_length hWF.nodup h
      have hsz := hWF.size
      omega

/-- Inserting a fresh key appends it at the most-recently-used end; when the
capacity is exceeded exactly the oldest (first, least-recently-used) entry is
evicted; well-formedness is preserved either way. -/
theorem lruSet_fresh (parse : String → Option Expr) (c : TinyLRU) (k : String)
    (ast : Expr) (hWF : LRUWF parse c) (h : aget c.map k = none)
    (hp : parse k = some ast) :
    (TinyLRU.set c k ast).map =
      (if c.map.length = c.cap then c.map.tail else c.map) ++ [(k, ast)] ∧
    LRUWF parse (TinyLRU.set c k ast) := by
  have hknotin : k ∉ akeys c.map := not_mem_keys_of_aget_none c.map k h
  have hm1 : (if (aget c.map k).isSome then aerase c.map k else c.map) ++ [(k, ast)]
      = c.map ++ [(k, ast)] := by simp [h]
  have hmap : (TinyLRU.set c k ast).map =
      (if c.map.length = c.cap then c.map.tail else c.map) ++ [(k, ast)] := by
    by_cases heq : c.map.length = c.cap
    · have hne : c.map ≠ [] := by
        intro hnil
        rw [hnil] at heq
        have hcap := hWF.capacity
        simp at heq
        omega
      obtain ⟨hd, t, hmm⟩ := List.exists_cons_of_ne_nil hne
      obtain ⟨k₀, v₀⟩ := hd
      have hk₀t : k₀ ∉ akeys t := by
        have hnd := hWF.nodup
        rw [hmm, akeys, List.map_cons, List.nodup_cons] at hnd
        simpa [akeys] using hnd.1
      have hkk₀ : k₀ ≠ k := by
        intro hkk
        apply hknotin
        rw [hmm, akeys, List.map_cons, hkk]
        exact List.mem_cons_self _ _
      have hlen : t.length + 1 = c.cap := by
        rw [hmm] at heq
        simpa using heq
      unfold TinyLRU.set
      rw [hm1, hmm]
      have hlt : c.cap < (((k₀, v₀) :: t) ++ [(k, ast)]).length := by
        simp
        omega
      simp only [hlt, if_pos, ite_true]
      have hkeys : akeys (((k₀, v₀) :: t) ++ [(k, ast)]) = k₀ :: (akeys t ++ [k]) := by
        simp [akeys]
      rw [hkeys]
      have hifpos : (((k₀, v₀) :: t).length = c.cap) := by simpa using hlen
      rw [if_pos hifpos]
      have hk₀t' : k₀ ∉ akeys (t ++ [(k, ast)]) := by
        rw [akeys, List.map_append]
        intro hmem
        rcases List.mem_append.mp hmem with hmem | hmem
        · exact hk₀t (by rw [akeys]; exact hmem)
        · simp at hmem
          exact hkk₀ hmem
      have herase := aerase_cons_self k₀ v₀ (t ++ [(k, ast)]) hk₀t'
      simpa using herase
    · unfold TinyLRU.set
      rw [hm1]
      have hle := hWF.size
      have hnlt : ¬ c.cap < (c.map ++ [(k, ast)]).length := by
        simp
        omega
      simp only [hnlt, heq, if_neg, ite_false]
  refine ⟨hmap, ?_⟩
  have hcached : ∀ p ∈ (TinyLRU.set c k ast).map, parse p.1 = some p.2 := by
    intro p hpm
    rw [hmap] at hpm
    rcases List.mem_append.mp hpm with hpm | hpm
    · have hpm' : p ∈ c.map := by
        revert hpm
        split
        · exact fun hpm => List.mem_of_mem_tail hpm
        · exact fun hpm => hpm
      exact hWF.cached p hpm'
    · simp at hpm
      subst hpm
      exact hp
  have htailsub : (if c.map.length = c.cap then c.map.tail else c.map).Sublist
      c.map := by
    split
    · exact List.tail_sublist c.map
    · exact List.Sublist.refl c.map
  refine ⟨hcached, ?_, ?_, ?_⟩
  · rw [hmap]
    show (akeys _).Nodup
    rw [akeys, List.map_append]
    refine List.Nodup.append ((htailsub.map Prod.fst).nodup hWF.nodup) (by simp) ?_
    intro a ha hb
    simp at hb
    subst hb
    exact hknotin ((htailsub.map Prod.fst).mem ha)
  · rw [hmap, lruSet_cap]
    by_cases heq : c.map.length = c.cap
    · have hne : c.map ≠ [] := by
        intro hnil
        rw [hnil] at heq
        have hcap := hWF.capacity
        simp at heq
        omega
      rw [if_pos heq]
      have h1 : 1 ≤ c.map.length := List.length_pos.mpr hne
      simp only [List.length_append, List.length_tail, List.length_cons,
        List.length_nil]
      omega
    · rw [if_neg heq]
      have hlt : c.map.length < c.cap := lt_of_le_of_ne hWF.size heq
      simp only [List.length_append, List.length_cons, List.length_nil]
      omega
  · rw [lruSet_cap]
    exact hWF.capacity

/-- First-insertion behaviour below capacity: plain append at the
most-recently-used end. -/
theorem lruSet_append (c : TinyLRU) (k : String) (ast : Expr)
    (h : aget c.map k = none) (hlt : c.map.length < c.cap) :
    (TinyLRU.set c k ast).map = c.map ++ [(k, ast)] := by
  unfold TinyLRU.set
  have hm1 : (if (aget c.map k).isSome then aerase c.map k else c.map) ++ [(k, ast)]
      = c.map ++ [(k, ast)] := by simp [h]
  rw [hm1]
  have hnlt : ¬ c.cap < (c.map ++ [(k, ast)]).length := by
    simp
    omega
  simp only [hnlt, if_neg, ite_false]

/-- Insertion at exactly full capacity evicts exactly the oldest (first)
entry. -/
theorem lruSet_evict (c : TinyLRU) (k : String) (ast : Expr)
    (hnd : (akeys c.map).Nodup) (h : aget c.map k = none)
    (hne : c.map ≠ []) (heq : c.map.length = c.cap) :
    (TinyLRU.set c k ast).map = c.map.tail ++ [(k, ast)] := by
  have hknotin : k ∉ akeys c.map := not_mem_keys_of_aget_none c.map k h
  have hm1 : (if (aget c.map k).isSome then aerase c.map k else c.map) ++ [(k, ast)]
      = c.map ++ [(k, ast)] := by simp [h]
  obtain ⟨hd, t, hmm⟩ := List.exists_cons_of_ne_nil hne
  obtain ⟨k₀, v₀⟩ := hd
  have hk₀t : k₀ ∉ akeys t := by
    rw [hmm, akeys, List.map_cons, List.nodup_cons] at hnd
    simpa [akeys] using hnd.1
  have hkk₀ : k₀ ≠ k := by
    intro hkk
    apply hknotin
    rw [hmm, akeys, List.map_cons, hkk]
    exact List.mem_cons_self _ _
  have hlen : t.length + 1 = c.cap := by
    rw [hmm] at heq
    simpa using heq
  unfold TinyLRU.set
  rw [hm1, hmm]
  have hlt : c.cap < (((k₀, v₀) :: t) ++ [(k, ast)]).length := by
    simp
    omega
  simp only [hlt, if_pos, ite_true]
  have hkeys : akeys (((k₀, v₀) :: t) ++ [(k, ast)]) = k₀ :: (akeys t ++ [k]) := by
    simp [akeys]
  rw [hkeys]
  have hk₀t' : k₀ ∉ akeys (t ++ [(k, ast)]) := by
    rw [akeys, List.map_append]
    intro hmem
    rcases List.mem_append.mp hmem with hmem | hmem
    · exact hk₀t (by rw [akeys]; exact hmem)
    · simp at hmem
      exact hkk₀ hmem
  have herase := aerase_cons_self k₀ v₀ (t ++ [(k, ast)]) hk₀t'
  simpa using herase

/-- `compile` under a well-formed cache returns exactly the parse of the
trimmed literal text, and preserves well-formedness and the capacity. -/
theorem compile_transparent (parse : String → Option Expr) (c : TinyLRU)
    (expr : String) (hWF : LRUWF parse c) :
    (compile parse c expr).1 = parse (jsTrim expr) ∧
    LRUWF parse (compile parse c expr).2 ∧
    (compile parse c expr).2.cap = c.cap := by
  have hkey : compile parse c expr =
      (match TinyLRU.get c (jsTrim expr) with
       | (some hit, c') => (some hit, c')
       | (none, c') =>
         match parse (jsTrim expr) with
         | none => (none, c')
         | some compiled => (some compiled, c'.set (jsTrim expr) compiled)) := rfl
  cases h : aget c.map (jsTrim expr) with
  | some ast =>
    obtain ⟨hget, hWF'⟩ := lruGet_hit parse c (jsTrim expr) ast hWF h
    rw [hkey, hget]
    have hp : parse (jsTrim expr) = some ast :=
      hWF.cached (jsTrim expr, ast) (aget_mem _ _ _ h)
    exact ⟨hp.symm, hWF', rfl⟩
  | none =>
    have hget : TinyLRU.get c (jsTrim expr) = (none, c) := by
      simp [TinyLRU.get, h]
    rw [hkey, hget]
    cases hp : parse (jsTrim expr) with
    | none => exact ⟨rfl, hWF, rfl⟩
    | some ast =>
      obtain ⟨_, hWF'⟩ := lruSet_fresh parse c (jsTrim expr) ast hWF h hp
      exact ⟨rfl, hWF', lruSet_cap c _ ast⟩

/-- A cached `evaluate` call under a well-formed cache computes exactly the
uncached `evaluate`, preserving well-formedness and the capacity. -/
theorem evaluateC_transparent (tables : List (String × List (String × JSNum)))
    (roller : String → Option Value) (parse : String → Option Expr)
    (c : TinyLRU) (expr : String) (ctx : EvalContext) (hWF : LRUWF parse c) :
    (evaluateC tables roller parse c expr ctx).1
      = evaluateU tables roller parse expr ctx ∧
    LRUWF parse (evaluateC tables roller parse c expr ctx).2 ∧
    (evaluateC tables roller parse c expr ctx).2.cap = c.cap := by
  obtain ⟨h1, h2, h3⟩ := compile_transparent parse c expr hWF
  rcases hcomp : compile parse c expr with ⟨o, c'⟩
  have ho : o = parse (jsTrim expr) := by rw [← h1, hcomp]
  have hWF' : LRUWF parse c' := by rw [hcomp] at h2; exact h2
  have hcap : c'.cap = c.cap := by rw [hcomp] at h3; exact h3
  unfold evaluateC evaluateU
  by_cases he : expr = ""
  · rw [if_pos he, if_pos he]
    exact ⟨rfl, hWF, rfl⟩
  · rw [if_neg he, if_neg he, hcomp, ← ho]
    cases o with
    | none => exact ⟨rfl, hWF', hcap⟩
    | some ast =>
      dsimp only
      cases evalExpr ⟨tables, roller, ctx, mkVarsObj ctx.vars⟩ ast with
      | error e => exact ⟨rfl, hWF', hcap⟩
      | ok v => cases v <;> exact ⟨rfl, hWF', hcap⟩

/-- A sequence of cached `evaluate` calls, threading the shared cache. -/
def runSeq (tables : List (String × List (String × JSNum)))
    (roller : String → Option Value) (parse : String → Option Expr)
    (c : TinyLRU) : List (String × EvalContext) → List JSNum × TinyLRU
  | [] => ([], c)
  | (e, ctx) :: rest =>
    let r := evaluateC tables roller parse c e ctx
    let rs := runSeq tables roller parse r.2 rest
    (r.1 :: rs.1, rs.2)

/-- Every sequence of cached calls from a well-formed cache returns exactly
the uncached results, ending well-formed with the capacity unchanged. -/
theorem runSeq_transparent (tables : List (String × List (String × JSNum)))
    (roller : String → Option Value) (parse : String → Option Expr)
    (inputs : List (String × EvalContext)) :
    ∀ c, LRUWF parse c →
      (runSeq tables roller parse c inputs).1
        = inputs.map (fun p => evaluateU tables roller parse p.1 p.2) ∧
      LRUWF parse (runSeq tables roller parse c inputs).2 ∧
      (runSeq tables roller parse c inputs).2.cap = c.cap := by
  induction inputs with
  | nil => intro c h; exact ⟨rfl, h, rfl⟩
  | cons hd rest ih =>
    intro c h
    obtain ⟨e, ctx⟩ := hd
    obtain ⟨h1, h2, h3⟩ := evaluateC_transparent tables roller parse c e ctx h
    obtain ⟨ih1, ih2, ih3⟩ := ih _ h2
    refine ⟨?_, ih2, by rw [runSeq]; rw [ih3, h3]⟩
    rw [runSeq]
    simp only [List.map_cons]
    rw [h1, ih1]

/-- The empty cache of any capacity is well-formed. -/
theorem lruMake_WF (parse : String → Option Expr) (n : ℕ) :
    LRUWF parse (TinyLRU.make n) := by
  refine ⟨?_, ?_, ?_, ?_⟩
  · intro p hp; cases hp
  · simp [TinyLRU.make, akeys]
  · simp [TinyLRU.make]
  · simp [TinyLRU.make]

/-- C9: the compiled-expression cache is semantically transparent — every
sequence of cached `evaluate` calls returns exactly the results of uncached
evaluation of the same trimmed text — and well-behaved: it is keyed by the
trimmed literal text, a default-256 cache never exceeds 256 entries, a hit
moves the entry to the most-recently-used (last) position, and insertion at
full capacity evicts exactly the least-recently-used (first) entry. -/
theorem claim_C9_lru_cache :
    (∀ tables roller parse c expr ctx, LRUWF parse c →
      (evaluateC tables roller parse c expr ctx).1
        = evaluateU tables roller parse expr ctx ∧
      LRUWF parse (evaluateC tables roller parse c expr ctx).2) ∧
    (∀ tables roller parse (inputs : List (String × EvalContext)),
      (runSeq tables roller parse (TinyLRU.make 256) inputs).1
        = inputs.map (fun p => evaluateU tables roller parse p.1 p.2) ∧
      (runSeq tables roller parse (TinyLRU.make 256) inputs).2.map.length ≤ 256) ∧
    (∀ parse c e1 e2, jsTrim e1 = jsTrim e2 →
      compile parse c e1 = compile parse c e2) ∧
    ((TinyLRU.make 256).cap = 256) ∧
    (∀ (c : TinyLRU) k ast, aget c.map k = some ast →
      TinyLRU.get c k = (some ast, ⟨c.cap, aerase c.map k ++ [(k, ast)]⟩)) ∧
    (∀ (c : TinyLRU) k ast, (akeys c.map).Nodup → aget c.map k = none →
      c.map ≠ [] → c.map.length = c.cap →
      (TinyLRU.set c k ast).map = c.map.tail ++ [(k, ast)]) ∧
    (∀ (c : TinyLRU) k ast, aget c.map k = none → c.map.length < c.cap →
      (TinyLRU.set c k ast).map = c.map ++ [(k, ast)]) := by
  refine ⟨?_, ?_, ?_, rfl, ?_, lruSet_evict, lruSet_append⟩
  · intro tables roller parse c expr ctx hWF
    obtain ⟨h1, h2, _⟩ := evaluateC_transparent tables roller parse c expr ctx hWF
    exact ⟨h1, h2⟩
  · intro tables roller parse inputs
    obtain ⟨h1, h2, h3⟩ := runSeq_transparent tables roller parse inputs
      (TinyLRU.make 256) (lruMake_WF parse 256)
    refine ⟨h1, ?_⟩
    have := h2.size
    rw [h3] at this
    simpa [TinyLRU.make] using this
  · intro parse c e1 e2 h
    unfold compile
    rw [h]
  · intro c k ast h
    simp [TinyLRU.get, h]

/-- C9 witness: the conjuncts applied at concrete caches — a transparent
call on the empty default cache, equal compiles for texts equal after
trimming, a hit moving `"a"` to the back of a two-entry cache, an eviction
dropping the oldest entry of a full two-entry cache, and a plain append
below capacity. -/
theorem claim_C9_lru_cache_witness :
    ((evaluateC [] (fun _ => none) (fun _ => none) (TinyLRU.make 256) "x"
        ⟨1, [], [], [], [], []⟩).1
      = evaluateU [] (fun _ => none) (fun _ => none) "x" ⟨1, [], [], [], [], []⟩) ∧
    (compile (fun _ => none) (TinyLRU.make 256) " x " =
      compile (fun _ => none) (TinyLRU.make 256) "x") ∧
    (TinyLRU.get ⟨8, [("a", .lit 1), ("b", .lit 2)]⟩ "a" =
      (some (.lit 1), ⟨8, aerase [("a", .lit 1), ("b", .lit 2)] "a" ++ [("a", .lit 1)]⟩)) ∧
    ((TinyLRU.set ⟨2, [("a", .lit 1), ("b", .lit 2)]⟩ "c" (.lit 3)).map =
      [("a", Expr.lit 1), ("b", Expr.lit 2)].tail ++ [("c", .lit 3)]) ∧
    ((TinyLRU.set ⟨8, [("a", .lit 1)]⟩ "c" (.lit 3)).map =
      [("a", Expr.lit 1)] ++ [("c", .lit 3)]) := by
  refine ⟨?_, ?_, ?_, ?_, ?_⟩
  · exact (claim_C9_lru_cache.1 [] (fun _ => none) (fun _ => none)
      (TinyLRU.make 256) "x" ⟨1, [], [], [], [], []⟩ (lruMake_WF _ 256)).1
  · exact claim_C9_lru_cache.2.2.1 (fun _ => none) (TinyLRU.make 256) " x " "x"
      (by with_unfolding_all decide)
  · exact claim_C9_lru_cache.2.2.2.2.1 ⟨8, [("a", .lit 1), ("b", .lit 2)]⟩ "a"
      (.lit 1) rfl
  · exact claim_C9_lru_cache.2.2.2.2.2.1 ⟨2, [("a", .lit 1), ("b", .lit 2)]⟩ "c"
      (.lit 3) (by simp [akeys]) rfl (by simp) rfl
  · exact claim_C9_lru_cache.2.2.2.2.2.2 ⟨8, [("a", .lit 1)]⟩ "c" (.lit 3) rfl
      (by simp)

/-! ### C7: an item instance in at most one slot position -/

/-- Number of positions of the given slot list holding the instance id. -/
def slotsCount (slots : List (String × Slot)) (id : String) : ℕ :=
  (slots.map (fun p => p.2.equipped.countP (fun e => e = some id))).sum

/-- Number of slot positions of the character holding the instance id. -/
def equippedCount (c : Character) (id : String) : ℕ :=
  slotsCount c.slots id

/-- The claimed invariant: each instance id occupies at most one slot
position. -/
def UniqueEquip (c : Character) : Prop :=
  ∀ id, equippedCount c id ≤ 1

theorem equippedCount_congr {c c' : Character} (h : c'.slots = c.slots)
    (id : String) : equippedCount c' id = equippedCount c id := by
  unfold equippedCount
  rw [h]

/-- `recalcCharacter` never touches the slots. -/
theorem recalcCharacter_slots (c : Character) (pack : LoadedPack) (E : Evaluator)
    (vars : List (String × Value)) : (recalcCharacter c pack E vars).slots = c.slots := rfl

/-- `recompute` never touches the slots. -/
theorem recompute_slots (c : Character) (pack : LoadedPack) (E : Evaluator) :
    (recompute c pack E).slots = c.slots := rfl

/-- The index found by `findIndex(e => e === null)` holds `null`. -/
theorem get?_of_findIdx_isNone {l : List (Option String)} {idx : ℕ}
    (h : l.findIdx? (·.isNone) = some idx) : l.get? idx = some none := by
  induction l generalizing idx with
  | nil => cases h
  | cons x xs ih =>
    rw [List.findIdx?_cons] at h
    by_cases hx : x.isNone
    · rw [if_pos hx] at h
      injection h with h0
      subst h0
      cases x with
      | none => rfl
      | some s => cases hx
    · rw [if_neg hx] at h
      rw [List.findIdx?_succ] at h
      cases hf : xs.findIdx? (·.isNone) with
      | none => rw [hf] at h; cases h
      | some j =>
        rw [hf] at h
        simp only [Option.map_some'] at h
        injection h with h0
        subst h0
        exact ih hf

/-- Writing an id into a `null` position adds exactly one occurrence of that
id (and none of any other). -/
theorem countP_set_none {l : List (Option String)} {idx : ℕ}
    (h : l.get? idx = some none) (i id : String) :
    (l.set idx (some i)).countP (fun e => e = some id)
      = l.countP (fun e => e = some id) + (if i = id then 1 else 0) := by
  induction l generalizing idx with
  | nil => cases h
  | cons x xs ih =>
    cases idx with
    | zero =>
      injection h with h0
      subst h0
      by_cases hi : i = id
      · simp [List.set_cons_zero, List.countP_cons, hi]
      · simp [List.set_cons_zero, List.countP_cons, hi]
    | succ n =>
      simp only [List.set_cons_succ, List.countP_cons]
      rw [ih (by simpa using h)]
      omega

/-- After `unequip`, the id occurs nowhere. -/
theorem countP_unequip_self (l : List (Option String)) (id : String) :
    (l.map (fun e => if e = some id then none else e)).countP
      (fun e => e = some id) = 0 := by
  induction l with
  | nil => rfl
  | cons x xs ih =>
    simp only [List.map_cons, List.countP_cons]
    rw [ih]
    by_cases hx : x = some id
    · simp [hx]
    · simp [hx]

/-- `unequip` of one id leaves every other id's count unchanged. -/
theorem countP_unequip_other (l : List (Option String)) (id id' : String)
    (h : id' ≠ id) :
    (l.map (fun e => if e = some id then none else e)).countP
      (fun e => e = some id')
      = l.countP (fun e => e = some id') := by
  induction l with
  | nil => rfl
  | cons x xs ih =>
    simp only [List.map_cons, List.countP_cons]
    rw [ih]
    by_cases hx : x = some id
    · subst hx
      have h1 : ¬ ((some id : Option String) = some id') := by
        intro hh
        injection hh with hh
        exact h hh.symm
      simp [h1]
    · simp [hx]

/-- Replacing the (first) entry at a present key exchanges its count
contribution. -/
theorem slotsCount_aset (slots : List (String × Slot)) (k : String) (s' : Slot)
    (id : String) :
    ∀ old, aget slots k = some old →
      slotsCount (aset slots k s') id + old.equipped.countP (fun e => e = some id)
        = slotsCount slots id + s'.equipped.countP (fun e => e = some id) := by
  induction slots with
  | nil => intro old h; cases h
  | cons hd tl ih =>
    intro old h
    obtain ⟨k₀, s₀⟩ := hd
    by_cases hk : k₀ = k
    · subst hk
      rw [aget_cons_self] at h
      injection h with h0
      subst h0
      simp only [aset, if_pos, ite_true, slotsCount, List.map_cons, List.sum_cons]
      omega
    · rw [aget_cons_ne _ _ _ _ hk] at h
      have := ih old h
      simp only [aset, hk, if_neg, ite_false, slotsCount, List.map_cons,
        List.sum_cons] at this ⊢
      omega

/-- A slot's count is bounded by the whole character's count. -/
theorem countP_le_slotsCount (slots : List (String × Slot)) (slotId : String)
    (slot : Slot) (id : String) (hs : aget slots slotId = some slot) :
    slot.equipped.countP (fun e => e = some id) ≤ slotsCount slots id := by
  induction slots with
  | nil => cases hs
  | cons hd tl ih =>
    obtain ⟨k₀, s₀⟩ := hd
    by_cases hk : k₀ = slotId
    · subst hk
      rw [aget_cons_self] at hs
      injection hs with h0
      subst h0
      simp only [slotsCount, List.map_cons, List.sum_cons]
      omega
    · rw [aget_cons_ne _ _ _ _ hk] at hs
      have hih := ih hs
      simp only [slotsCount, List.map_cons, List.sum_cons] at hih ⊢
      omega

/-- A successful equip-style write into a free position keeps every count at
most one, provided the written id was not equipped anywhere. -/
theorem uniqueEquip_write (c : Character) (slotId : String) (slot : Slot)
    (idx : ℕ) (iid : String)
    (hs : aget c.slots slotId = some slot)
    (hidx : slot.equipped.findIdx? (·.isNone) = some idx)
    (hu : UniqueEquip c) (hfresh : equippedCount c iid = 0) :
    ∀ id, slotsCount (aset c.slots slotId
      ⟨slot.max, slot.equipped.set idx (some iid)⟩) id ≤ 1 := by
  intro id
  have hget := get?_of_findIdx_isNone hidx
  have hset := countP_set_none hget iid id
  have hw := slotsCount_aset c.slots slotId
    ⟨slot.max, slot.equipped.set idx (some iid)⟩ id slot hs
  dsimp only at hw
  by_cases hid : iid = id
  · subst hid
    have h0 : slotsCount c.slots iid = 0 := hfresh
    have hslot0 : slot.equipped.countP (fun e => e = some iid) = 0 := by
      have hle := countP_le_slotsCount c.slots slotId slot iid hs
      omega
    have hone : (if iid = iid then 1 else 0) = 1 := by simp
    rw [hslot0, hone] at hset
    omega
  · have hzero : (if iid = id then 1 else 0) = 0 := by simp [hid]
    rw [hzero] at hset
    have hcu := hu id
    unfold equippedCount at hcu
    omega

/-- One mutating action, with the two freshness side conditions under which
the at-most-one-position invariant is actually maintained by the code:
`equip` is only invoked on an instance that is not currently equipped, and
`addItem`'s generated instance id is fresh (as `nanoid()` provides). -/
inductive ActionStep : Character → Character → Prop where
  | attrSet (c : Character) (pack : LoadedPack) (E : Evaluator) (id : String)
      (v : JSNum) : ActionStep c (setAttribute c pack E id v)
  | attrDelta (c : Character) (pack : LoadedPack) (E : Evaluator) (id : String)
      (d : JSNum) : ActionStep c (deltaAttribute c pack E id d)
  | levelSet (c : Character) (pack : LoadedPack) (E : Evaluator) (l : JSNum) :
      ActionStep c (setLevel c pack E l)
  | levelAdd (c : Character) (pack : LoadedPack) (E : Evaluator) (d : JSNum) :
      ActionStep c (addLevels c pack E d)
  | resSet (c : Character) (pack : LoadedPack) (E : Evaluator) (id : String)
      (v : JSNum) : ActionStep c (setResourceCurrent c pack E id v)
  | resDamage (c : Character) (pack : LoadedPack) (E : Evaluator) (id : String)
      (a : JSNum) : ActionStep c (damage c pack E id a)
  | resHeal (c : Character) (pack : LoadedPack) (E : Evaluator) (id : String)
      (a : JSNum) : ActionStep c (heal c pack E id a)
  | resSpend (c : Character) (pack : LoadedPack) (E : Evaluator) (id : String)
      (a : JSNum) : ActionStep c (spend c pack E id a)
  | resGain (c : Character) (pack : LoadedPack) (E : Evaluator) (id : String)
      (a : JSNum) : ActionStep c (gain c pack E id a)
  | restLong (c : Character) (pack : LoadedPack) (E : Evaluator) :
      ActionStep c (longRest c pack E)
  | restShort (c : Character) (pack : LoadedPack) (E : Evaluator) :
      ActionStep c (shortRest c pack E)
  | invAdd (c : Character) (item : InventoryItem) :
      ActionStep c (addItemToInventory c item)
  | itemAdd (c : Character) (item : InventoryItem) (autoEquip : Bool)
      (hfresh : equippedCount c item.instanceId = 0) :
      ActionStep c (addItem c item autoEquip)
  | doEquip (c : Character) (pack : LoadedPack) (E : Evaluator)
      (instanceId slotId : String)
      (hfresh : equippedCount c instanceId = 0) :
      ActionStep c (equip c pack E instanceId slotId)
  | doUnequip (c : Character) (pack : LoadedPack) (E : Evaluator)
      (instanceId : String) : ActionStep c (unequip c pack E instanceId)

theorem setAttribute_slots (c : Character) (pack : LoadedPack) (E : Evaluator)
    (id : String) (v : JSNum) : (setAttribute c pack E id v).slots = c.slots := by
  unfold setAttribute
  cases aget c.attr id <;> rfl

theorem deltaAttribute_slots (c : Character) (pack : LoadedPack) (E : Evaluator)
    (id : String) (d : JSNum) : (deltaAttribute c pack E id d).slots = c.slots := by
  unfold deltaAttribute
  cases aget c.attr id <;> rfl

theorem setResourceCurrent_slots (c : Character) (pack : LoadedPack) (E : Evaluator)
    (id : String) (v : JSNum) : (setResourceCurrent c pack E id v).slots = c.slots := by
  unfold setResourceCurrent
  cases aget c.res id <;> rfl

theorem damage_slots (c : Character) (pack : LoadedPack) (E : Evaluator)
    (id : String) (a : JSNum) : (damage c pack E id a).slots = c.slots := by
  unfold damage
  cases aget c.res id <;> rfl

theorem heal_slots (c : Character) (pack : LoadedPack) (E : Evaluator)
    (id : String) (a : JSNum) : (heal c pack E id a).slots = c.slots := by
  unfold heal
  cases aget c.res id <;> rfl

/-- `equip` either leaves the slots unchanged (its guard no-ops) or writes
the id into the first free position of the named slot. -/
theorem equip_slots_cases (c : Character) (pack : LoadedPack) (E : Evaluator)
    (instanceId slotId : String) :
    (equip c pack E instanceId slotId).slots = c.slots ∨
    ∃ slot idx, aget c.slots slotId = some slot ∧
      slot.equipped.findIdx? (·.isNone) = some idx ∧
      (equip c pack E instanceId slotId).slots
        = aset c.slots slotId ⟨slot.max, slot.equipped.set idx (some instanceId)⟩ := by
  unfold equip
  cases hfi : findItemByInstance c instanceId with
  | none => exact Or.inl rfl
  | some item =>
    dsimp only
    cases hs : aget c.slots slotId with
    | none => exact Or.inl rfl
    | some slot =>
      dsimp only
      cases hidx : slot.equipped.findIdx? (·.isNone) with
      | none => exact Or.inl rfl
      | some idx => exact Or.inr ⟨slot, idx, rfl, hidx, rfl⟩

/-- `addItem` either leaves the slots unchanged or auto-equips the fresh id
into the first free position of the hinted slot. -/
theorem addItem_slots_cases (c : Character) (item : InventoryItem)
    (autoEquip : Bool) :
    (addItem c item autoEquip).slots = c.slots ∨
    ∃ slotId slot idx, item.slot = some slotId ∧
      aget c.slots slotId = some slot ∧
      slot.equipped.findIdx? (·.isNone) = some idx ∧
      (addItem c item autoEquip).slots
        = aset c.slots slotId
            ⟨slot.max, slot.equipped.set idx (some item.instanceId)⟩ := by
  unfold addItem
  cases autoEquip with
  | false =>
    cases item.slot <;> exact Or.inl rfl
  | true =>
    cases hsl : item.slot with
    | none => exact Or.inl rfl
    | some slotId =>
      by_cases hempty : slotId = ""
      · subst hempty
        exact Or.inl rfl
      · simp only [hempty, if_neg, ite_false]
        cases hs : aget c.slots slotId with
        | none => exact Or.inl rfl
        | some slot =>
          dsimp only
          cases hidx : slot.equipped.findIdx? (·.isNone) with
          | none => exact Or.inl rfl
          | some idx => exact Or.inr ⟨slotId, slot, idx, rfl, hs, hidx, rfl⟩

/-- Every action step preserves the at-most-one-position invariant. -/
theorem ActionStep.preserves {c c' : Character} (h : ActionStep c c')
    (hu : UniqueEquip c) : UniqueEquip c' := by
  cases h with
  | attrSet pack E id v =>
    intro i; rw [equippedCount_congr (setAttribute_slots c pack E id v)]; exact hu i
  | attrDelta pack E id d =>
    intro i; rw [equippedCount_congr (deltaAttribute_slots c pack E id d)]; exact hu i
  | levelSet pack E l => intro i; exact hu i
  | levelAdd pack E d => intro i; exact hu i
  | resSet pack E id v =>
    intro i; rw [equippedCount_congr (setResourceCurrent_slots c pack E id v)]; exact hu i
  | resDamage pack E id a =>
    intro i; rw [equippedCount_congr (damage_slots c pack E id a)]; exact hu i
  | resHeal pack E id a =>
    intro i; rw [equippedCount_congr (heal_slots c pack E id a)]; exact hu i
  | resSpend pack E id a =>
    intro i
    show equippedCount (damage c pack E id a) i ≤ 1
    rw [equippedCount_congr (damage_slots c pack E id a)]
    exact hu i
  | resGain pack E id a =>
    intro i
    show equippedCount (heal c pack E id a) i ≤ 1
    rw [equippedCount_congr (heal_slots c pack E id a)]
    exact hu i
  | restLong pack E => intro i; exact hu i
  | restShort pack E => intro i; exact hu i
  | invAdd item => intro i; exact hu i
  | itemAdd item autoEquip hfresh =>
    intro i
    rcases addItem_slots_cases c item autoEquip with h | ⟨slotId, slot, idx, _, hs, hidx, h⟩
    · rw [equippedCount_congr h]
      exact hu i
    · unfold equippedCount
      rw [h]
      exact uniqueEquip_write c slotId slot idx item.instanceId hs hidx hu hfresh i
  | doEquip pack E instanceId slotId hfresh =>
    intro i
    rcases equip_slots_cases c pack E instanceId slotId with h | ⟨slot, idx, hs, hidx, h⟩
    · rw [equippedCount_congr h]
      exact hu i
    · unfold equippedCount
      rw [h]
      exact uniqueEquip_write c slotId slot idx instanceId hs hidx hu hfresh i
  | doUnequip pack E instanceId =>
    intro i
    unfold unequip
    show slotsCount (recompute _ pack E).slots i ≤ 1
    rw [recompute_slots]
    dsimp only
    by_cases hid : i = instanceId
    · subst hid
      have : slotsCount (c.slots.map fun p =>
          (p.1, Slot.mk p.2.max (p.2.equipped.map fun e =>
            if e = some i then none else e))) i = 0 := by
        unfold slotsCount
        induction c.slots with
        | nil => rfl
        | cons hd tl ih =>
          simp only [List.map_cons, List.sum_cons]
          rw [ih, countP_unequip_self]
      omega
    · have : slotsCount (c.slots.map fun p =>
          (p.1, Slot.mk p.2.max (p.2.equipped.map fun e =>
            if e = some instanceId then none else e))) i
          = slotsCount c.slots i := by
        unfold slotsCount
        induction c.slots with
        | nil => rfl
        | cons hd tl ih =>
          simp only [List.map_cons, List.sum_cons]
          rw [ih, countP_unequip_other _ _ _ hid]
      rw [this]
      exact hu i

/-- Membership in an upsert. -/
theorem mem_aset {m : List (String × α)} {k : String} {v : α} {p : String × α}
    (h : p ∈ aset m k v) : p = (k, v) ∨ p ∈ m := by
  induction m with
  | nil => simpa [aset] using h
  | cons hd tl ih =>
    obtain ⟨k₀, v₀⟩ := hd
    by_cases hk : k₀ = k
    · subst hk
      simp only [aset, if_pos, ite_true] at h
      rcases List.mem_cons.mp h with h | h
      · exact Or.inl h
      · exact Or.inr (List.mem_cons_of_mem _ h)
    · simp only [aset, hk, if_neg, ite_false] at h
      rcases List.mem_cons.mp h with h | h
      · exact Or.inr (by rw [h]; exact List.mem_cons_self _ _)
      · rcases ih h with h | h
        · exact Or.inl h
        · exact Or.inr (List.mem_cons_of_mem _ h)

/-- Entries of a fold of upserts come from the initial map or from some
folded element. -/
theorem foldl_aset_mem {α β : Type} (key : α → String) (val : α → β)
    (l : List α) :
    ∀ (init : List (String × β)) (p : String × β),
      p ∈ l.foldl (fun out s => aset out (key s) (val s)) init →
      p ∈ init ∨ ∃ s ∈ l, p = (key s, val s) := by
  induction l with
  | nil => intro init p h; exact Or.inl h
  | cons hd tl ih =>
    intro init p h
    rcases ih (aset init (key hd) (val hd)) p h with h' | ⟨s, hs, hps⟩
    · rcases mem_aset h' with h'' | h''
      · exact Or.inr ⟨hd, List.mem_cons_self _ _, h''⟩
      · exact Or.inl h''
    · exact Or.inr ⟨s, List.mem_cons_of_mem _ hs, hps⟩

/-- Every slot built by `buildSlots` starts with an all-`null` equipped
array. -/
theorem buildSlots_empty (schema : Option PackSchema) (p : String × Slot)
    (h : p ∈ buildSlots schema) :
    ∃ m, p.2.equipped = List.replicate m none := by
  have h' := foldl_aset_mem (fun s : PackSchemaItemSlot => s.id)
    (fun s => Slot.mk (Max.max 1 (s.maxEquipped.getD 1))
      (List.replicate (Max.max 1 (s.maxEquipped.getD 1)) none))
    ((schema.map (·.itemSlots)).getD []
      ++ ((schema.bind (·.inventory)).map (·.slotTypes)).getD []) [] p h
  rcases h' with h' | ⟨s, _, hps⟩
  · cases h'
  · exact ⟨Max.max 1 (s.maxEquipped.getD 1), by rw [hps]⟩

/-- A freshly built slot map holds no instance id anywhere. -/
theorem slotsCount_buildSlots (schema : Option PackSchema) (id : String) :
    slotsCount (buildSlots schema) id = 0 := by
  unfold slotsCount
  apply List.sum_eq_zero
  intro x hx
  obtain ⟨p, hp, hpx⟩ := List.mem_map.mp hx
  obtain ⟨m, hm⟩ := buildSlots_empty schema p hp
  subst hpx
  show p.2.equipped.countP _ = 0
  rw [hm, List.countP_eq_zero]
  intro a ha
  rw [List.eq_of_mem_replicate ha]
  simp

/-- C7 (amended): the at-most-one-position invariant holds at creation and is
preserved by every sequence of mutating actions provided `equip` (and
`addItem`'s auto-equip) is only invoked with an instance id that is not
currently equipped — a restriction the unrestricted claim lacks, since
`equip` itself never checks it: equipping an already-equipped instance does
put one id into two slot positions (see the counterexample). -/
theorem claim_C7_unique_equip :
    (∀ pack E opts c₀, createCharacter pack E opts = some c₀ → UniqueEquip c₀) ∧
    (∀ c c', UniqueEquip c → Relation.ReflTransGen ActionStep c c' →
      UniqueEquip c') := by
  constructor
  · intro pack E opts c₀ hc id
    have hslots : c₀.slots = buildSlots pack.schema := by
      obtain ⟨md, schema, mech, rules, content⟩ := pack
      unfold createCharacter at hc
      cases md with
      | none => exact Option.noConfusion hc
      | some m =>
        dsimp only at hc
        by_cases hid : m.id = ""
        · rw [if_pos hid] at hc
          exact Option.noConfusion hc
        · rw [if_neg hid] at hc
          have h2 := Option.some.inj hc
          rw [← h2]
    unfold equippedCount
    rw [hslots, slotsCount_buildSlots]
    exact Nat.zero_le 1
  · intro c c' hu hreach
    induction hreach with
    | refl => exact hu
    | tail _ hstep ih => exact hstep.preserves ih

/-- Witness pack for C7: two single-position slot types `a` and `b`. -/
def witnessPackC7 : LoadedPack :=
  { metadata := some ⟨"sys"⟩
    schema := some
      { attributes := [], resources := [], proficiencyCategories := []
        itemSlots := []
        inventory := some ⟨some "slot_limit", none, none,
          [⟨"a", some 1⟩, ⟨"b", some 1⟩]⟩
        tags := [], derived := [] }
    mechanics := none, rules := none, content := none }

/-- Witness item for C7. -/
def witnessItemC7 : InventoryItem := ⟨"i1", "c", "l", none, [], none, none, none⟩

/-- C7 witness: the invariant at creation, and along a concrete restricted
action sequence (add an item to the inventory, then equip it while it is not
yet equipped anywhere). -/
theorem claim_C7_unique_equip_witness :
    ∃ c₀, createCharacter witnessPackC7 (fun _ _ => 0) CreateCharacterOptions.empty
        = some c₀ ∧ UniqueEquip c₀ ∧
      UniqueEquip (equip (addItemToInventory c₀ witnessItemC7) witnessPackC7
        (fun _ _ => 0) "i1" "a") := by
  refine ⟨_, rfl, ?_, ?_⟩
  · exact claim_C7_unique_equip.1 witnessPackC7 (fun _ _ => 0)
      CreateCharacterOptions.empty _ rfl
  · refine claim_C7_unique_equip.2 _ _
      (claim_C7_unique_equip.1 witnessPackC7 (fun _ _ => 0)
        CreateCharacterOptions.empty _ rfl) ?_
    refine Relation.ReflTransGen.tail
      (Relation.ReflTransGen.single (ActionStep.invAdd _ witnessItemC7)) ?_
    exact ActionStep.doEquip _ witnessPackC7 (fun _ _ => 0) "i1" "a"
      (by with_unfolding_all decide)

/-- C7 counterexample: equipping an already-equipped instance — a state
reachable via createCharacter, addItemToInventory, equip, equip — puts
the id `i1` into two slot positions at once. -/
theorem claim_C7_counterexample :
    ∃ c₀, createCharacter witnessPackC7 (fun _ _ => 0) CreateCharacterOptions.empty
        = some c₀ ∧
      equippedCount
        (equip (equip (addItemToInventory c₀ witnessItemC7) witnessPackC7
            (fun _ _ => 0) "i1" "a")
          witnessPackC7 (fun _ _ => 0) "i1" "b") "i1" = 2 := by
  refine ⟨_, rfl, ?_⟩
  with_unfolding_all decide

/-- A fold skips exactly the elements its step function ignores. -/
theorem foldl_filter_of_skip {α β : Type} (f : β → α → β) (p : α → Bool)
    (h : ∀ acc a, p a = false → f acc a = acc) :
    ∀ (l : List α) (acc : β), l.foldl f acc = (l.filter p).foldl f acc := by
  intro l
  induction l with
  | nil => intro acc; rfl
  | cons hd tl ih =>
    intro acc
    rw [List.foldl_cons]
    cases hp : p hd with
    | false =>
      rw [h acc hd hp, List.filter_cons_of_neg (by simp [hp])]
      exact ih acc
    | true =>
      rw [List.filter_cons_of_pos (by simp [hp]), List.foldl_cons]
      exact ih (f acc hd)

/-- `summarizeLoop` only looks at equipped items: filtering the item list
down to the equipped ones does not change the result. -/
theorem summarizeLoop_filter (pack : LoadedPack) (ids : List String)
    (items : List InventoryItem) :
    summarizeLoop pack ids items
      = summarizeLoop pack ids
          (items.filter (fun it => it.instanceId ∈ ids)) := by
  unfold summarizeLoop
  refine foldl_filter_of_skip _ _ ?_ items ([], [])
  intro acc it hit
  exact if_neg (of_decide_eq_false hit)

/-- `summarizeLoop` depends on the equipped-id list only through membership. -/
theorem summarizeLoop_ext (pack : LoadedPack) (ids ids' : List String)
    (h : ∀ s, s ∈ ids ↔ s ∈ ids') (items : List InventoryItem) :
    summarizeLoop pack ids items = summarizeLoop pack ids' items := by
  unfold summarizeLoop
  apply List.foldl_ext
  intro acc it _
  by_cases hm : it.instanceId ∈ ids
  · rw [if_pos hm, if_pos ((h _).mp hm)]
  · rw [if_neg hm, if_neg fun hx => hm ((h _).mpr hx)]

/-- Membership in the inner fold of `getEquippedIds` over one equipped
array. -/
theorem mem_equipFoldInner (s : String) (l : List (Option String)) :
    ∀ ids : List String,
      s ∈ l.foldl (fun ids inst =>
          match inst with
          | some t => if t = "" then ids else ids ++ [t]
          | none => ids) ids ↔ s ∈ ids ∨ (s ≠ "" ∧ some s ∈ l) := by
  induction l with
  | nil =>
    intro ids
    simp
  | cons hd tl ih =>
    intro ids
    rw [List.foldl_cons]
    cases hd with
    | none =>
      rw [ih]
      constructor
      · rintro (h | ⟨hne, h⟩)
        · exact Or.inl h
        · exact Or.inr ⟨hne, List.mem_cons_of_mem _ h⟩
      · rintro (h | ⟨hne, h⟩)
        · exact Or.inl h
        · rcases List.mem_cons.mp h with h | h
          · exact absurd h (by simp)
          · exact Or.inr ⟨hne, h⟩
    | some t =>
      dsimp only
      by_cases ht : t = ""
      · rw [if_pos ht, ih]
        subst ht
        constructor
        · rintro (h | ⟨hne, h⟩)
          · exact Or.inl h
          · exact Or.inr ⟨hne, List.mem_cons_of_mem _ h⟩
        · rintro (h | ⟨hne, h⟩)
          · exact Or.inl h
          · rcases List.mem_cons.mp h with h | h
            · exact absurd (Option.some.inj h) hne
            · exact Or.inr ⟨hne, h⟩
      · rw [if_neg ht, ih]
        constructor
        · rintro (h | ⟨hne, h⟩)
          · rcases List.mem_append.mp h with h | h
            · exact Or.inl h
            · have hst : s = t := by simpa using h
              subst hst
              exact Or.inr ⟨ht, List.mem_cons_self _ _⟩
          · exact Or.inr ⟨hne, List.mem_cons_of_mem _ h⟩
        · rintro (h | ⟨hne, h⟩)
          · exact Or.inl (List.mem_append.mpr (Or.inl h))
          · rcases List.mem_cons.mp h with h | h
            · rw [Option.some.inj h]
              exact Or.inl (List.mem_append.mpr (Or.inr (by simp)))
            · exact Or.inr ⟨hne, h⟩

/-- Membership in `getEquippedIds`: exactly the non-empty instance ids
referenced by some slot position. -/
theorem mem_getEquippedIds (character : Character) (s : String) :
    s ∈ getEquippedIds character ↔
      s ≠ "" ∧ ∃ p ∈ character.slots, some s ∈ p.2.equipped := by
  have H : ∀ (slots : List (String × Slot)) (ids : List String),
      s ∈ slots.foldl (fun ids p =>
          p.2.equipped.foldl (fun ids inst =>
            match inst with
            | some t => if t = "" then ids else ids ++ [t]
            | none => ids) ids) ids ↔
        s ∈ ids ∨ (s ≠ "" ∧ ∃ p ∈ slots, some s ∈ p.2.equipped) := by
    intro slots
    induction slots with
    | nil => intro ids; simp
    | cons hd tl ih =>
      intro ids
      rw [List.foldl_cons, ih]
      rw [mem_equipFoldInner]
      constructor
      · rintro ((h | ⟨hne, h⟩) | ⟨hne, p, hp, hmem⟩)
        · exact Or.inl h
        · exact Or.inr ⟨hne, hd, List.mem_cons_self _ _, h⟩
        · exact Or.inr ⟨hne, p, List.mem_cons_of_mem _ hp, hmem⟩
      · rintro (h | ⟨hne, p, hp, hmem⟩)
        · exact Or.inl (Or.inl h)
        · rcases List.mem_cons.mp hp with h | h
          · subst h
            exact Or.inl (Or.inr ⟨hne, hmem⟩)
          · exact Or.inr ⟨hne, p, h, hmem⟩
  unfold getEquippedIds
  exact (H character.slots []).trans (by simp)

/-- C3 fixture pack with no stacking rules, so all defaults apply. -/
def packC3 : LoadedPack :=
  { metadata := some ⟨"sys"⟩, schema := none, mechanics := none, rules := none
    content := none }

/-- C3 fixture pack with a per-key stacking override and a group default. -/
def packC3R : LoadedPack :=
  { metadata := some ⟨"sys"⟩, schema := none, mechanics := none
    rules := some ⟨[], [], [], [("caps", [("armor", .max), ("default", .sum)])]⟩
    content := none }

/-- C3 fixture item: one cap contribution on key `k` and one bonus
contribution on key `q`. -/
def itemC3 (iid : String) (capV bonusV : ℚ) : InventoryItem :=
  ⟨iid, "c", "l", none, [], none, some [("k", .num capV)], some [("q", .num bonusV)]⟩

/-- C3: `summarizeEquipmentVars` considers only items referenced by some
slot's equipped array (conjuncts 1–2); each key's stacking policy resolves
as per-key entry, else the group's `default` entry, else caps→min /
bonuses→sum (3–5); the first contribution for a key is taken as-is, later
ones combine with the running value via min/max/sum per the resolved mode
(6–8); two default cap contributions to one key combine via min and two
default bonus contributions combine via sum (9); and the result depends on
the equipped-id list only through membership, hence is deterministic given
the same equipped set, items and pack (10). -/
theorem claim_C3_stacking_semantics :
    (∀ character pack,
      summarizeEquipmentVars character pack =
        [("caps", Value.obj (((summarizeLoop pack (getEquippedIds character)
            (character.inventory.items.filter
              (fun it => it.instanceId ∈ getEquippedIds character))).1).map
            (fun p => (p.1, Value.num p.2)))),
         ("bonuses", Value.obj (((summarizeLoop pack (getEquippedIds character)
            (character.inventory.items.filter
              (fun it => it.instanceId ∈ getEquippedIds character))).2).map
            (fun p => (p.1, Value.num p.2))))]) ∧
    (∀ character s, s ∈ getEquippedIds character ↔
      s ≠ "" ∧ ∃ p ∈ character.slots, some s ∈ p.2.equipped) ∧
    (∀ pack g key m,
      aget ((aget ((pack.rules.map (·.stacking)).getD []) g).getD []) key = some m →
      getStackingMode pack g key = m) ∧
    (∀ pack g key,
      aget ((aget ((pack.rules.map (·.stacking)).getD []) g).getD []) key = none →
      ∀ m, aget ((aget ((pack.rules.map (·.stacking)).getD []) g).getD []) "default"
          = some m →
        getStackingMode pack g key = m) ∧
    (∀ pack g key,
      aget ((aget ((pack.rules.map (·.stacking)).getD []) g).getD []) key = none →
      aget ((aget ((pack.rules.map (·.stacking)).getD []) g).getD []) "default"
          = none →
      getStackingMode pack g key = (if g = "caps" then .min else .sum)) ∧
    (∀ v mode, v.isFinite = true →
      mergeCap none v mode = v ∧ mergeBonus none v mode = v) ∧
    (∀ e v, v.isFinite = true →
      (mergeCap (some e) v .min = JSNum.min2 e v ∧
       mergeCap (some e) v .max = JSNum.max2 e v ∧
       mergeCap (some e) v .sum = JSNum.add e v) ∧
      (mergeBonus (some e) v .sum = JSNum.add e v ∧
       mergeBonus (some e) v .max = JSNum.max2 e v ∧
       mergeBonus (some e) v .min = JSNum.min2 e v)) ∧
    (∀ target k v policy, v.isFinite = true →
      mergeKeyedNumbers target [(k, v)] policy true
          = aset target k (mergeCap (aget target k) v (policy k)) ∧
      mergeKeyedNumbers target [(k, v)] policy false
          = aset target k (mergeBonus (aget target k) v (policy k))) ∧
    (∀ a b c d : ℚ,
      summarizeLoop packC3 ["i1", "i2"] [itemC3 "i1" a c, itemC3 "i2" b d]
        = ([("k", .num (Min.min a b))], [("q", .num (c + d))])) ∧
    (∀ pack ids ids' items, (∀ s, s ∈ ids ↔ s ∈ ids') →
      summarizeLoop pack ids items = summarizeLoop pack ids' items) := by
  refine ⟨?_, ?_, ?_, ?_, ?_, ?_, ?_, ?_, ?_, ?_⟩
  · intro character pack
    simp only [summarizeEquipmentVars]
    rw [summarizeLoop_filter]
  · intro character s
    exact mem_getEquippedIds character s
  · intro pack g key m h
    simp only [getStackingMode]
    rw [h]
    rfl
  · intro pack g key hk m hd
    simp only [getStackingMode]
    rw [hk, hd]
    rfl
  · intro pack g key hk hd
    simp only [getStackingMode]
    rw [hk, hd]
    rfl
  · intro v mode h
    cases v with
    | num q => exact ⟨rfl, rfl⟩
    | nan => exact Bool.noConfusion h
    | posInf => exact Bool.noConfusion h
    | negInf => exact Bool.noConfusion h
  · intro e v h
    cases v with
    | num q => exact ⟨⟨rfl, rfl, rfl⟩, rfl, rfl, rfl⟩
    | nan => exact Bool.noConfusion h
    | posInf => exact Bool.noConfusion h
    | negInf => exact Bool.noConfusion h
  · intro target k v policy h
    constructor
    · unfold mergeKeyedNumbers
      rw [List.foldl_cons, List.foldl_nil]
      dsimp only
      rw [if_neg (by rw [h]; decide)]
      rfl
    · unfold mergeKeyedNumbers
      rw [List.foldl_cons, List.foldl_nil]
      dsimp only
      rw [if_neg (by rw [h]; decide)]
      rfl
  · intro a b c d
    with_unfolding_all rfl
  · intro pack ids ids' items h
    exact summarizeLoop_ext pack ids ids' h items

/-- C3 witness: the claim instantiated at concrete packs, items and
values. -/
theorem claim_C3_stacking_semantics_witness :
    getStackingMode packC3R "caps" "armor" = .max ∧
    getStackingMode packC3R "caps" "other" = .sum ∧
    getStackingMode packC3 "caps" "other" = .min ∧
    getStackingMode packC3 "bonuses" "other" = .sum ∧
    mergeCap none 7 .min = 7 ∧
    mergeCap (some 3) 5 .min = JSNum.min2 3 5 ∧
    mergeBonus (some 3) 5 .sum = JSNum.add 3 5 ∧
    mergeKeyedNumbers [] [("k", 5)] (fun _ => .min) true
      = aset [] "k" (mergeCap (aget [] "k") 5 .min) ∧
    summarizeLoop packC3 ["i1", "i2"] [itemC3 "i1" 1 2, itemC3 "i2" 3 4]
      = ([("k", .num (Min.min 1 3))], [("q", .num (2 + 4))]) ∧
    summarizeLoop packC3 ["i1"] [] = summarizeLoop packC3 ["i1", "i1"] [] := by
  refine ⟨?_, ?_, ?_, ?_, ?_, ?_, ?_, ?_, ?_, ?_⟩
  · exact claim_C3_stacking_semantics.2.2.1 packC3R "caps" "armor" .max
      (by with_unfolding_all decide)
  · exact claim_C3_stacking_semantics.2.2.2.1 packC3R "caps" "other"
      (by with_unfolding_all decide) .sum (by with_unfolding_all decide)
  · exact (claim_C3_stacking_semantics.2.2.2.2.1 packC3 "caps" "other"
      (by with_unfolding_all decide) (by with_unfolding_all decide)).trans
      (by with_unfolding_all decide)
  · exact (claim_C3_stacking_semantics.2.2.2.2.1 packC3 "bonuses" "other"
      (by with_unfolding_all decide) (by with_unfolding_all decide)).trans
      (by with_unfolding_all decide)
  · exact (claim_C3_stacking_semantics.2.2.2.2.2.1 7 .min rfl).1
  · exact ((claim_C3_stacking_semantics.2.2.2.2.2.2.1 3 5 rfl).1).1
  · exact ((claim_C3_stacking_semantics.2.2.2.2.2.2.1 3 5 rfl).2).1
  · exact (claim_C3_stacking_semantics.2.2.2.2.2.2.2.1 [] "k" 5
      (fun _ => .min) rfl).1
  · exact claim_C3_stacking_semantics.2.2.2.2.2.2.2.2.1 1 3 2 4
  · exact claim_C3_stacking_semantics.2.2.2.2.2.2.2.2.2 packC3 ["i1"]
      ["i1", "i1"] [] (by intro s; simp)

/-- The resource step of `recalcCharacter`'s first loop, with the parts of the
live context that the loop never changes abstracted out. -/
def resStep (E : Evaluator) (lvl : JSNum) (attr : List (String × JSNum))
    (prof : List (String × String)) (der : List (String × JSNum))
    (vars : List (String × Value))
    (res : List (String × Resource)) (r : PackSchemaResource) :
    List (String × Resource) :=
  aset res r.id ⟨JSNum.min2 (((aget res r.id).map (·.current)).getD
      (JSNum.max2 0 (E (r.defaultMaxFormula.getD "0")
        ⟨lvl, attr, res, prof, der, vars⟩).floor))
    (JSNum.max2 0 (E (r.defaultMaxFormula.getD "0")
        ⟨lvl, attr, res, prof, der, vars⟩).floor),
    JSNum.max2 0 (E (r.defaultMaxFormula.getD "0")
        ⟨lvl, attr, res, prof, der, vars⟩).floor⟩

/-- The canonical max of a resource for an evaluator that ignores the `res`
and `derived` views (evaluated here at the empty views). -/
def resM (E : Evaluator) (lvl : JSNum) (attr : List (String × JSNum))
    (prof : List (String × String)) (vars : List (String × Value))
    (r : PackSchemaResource) : JSNum :=
  JSNum.max2 0 (E (r.defaultMaxFormula.getD "0")
    ⟨lvl, attr, [], prof, [], vars⟩).floor

/-- `Math.min` absorption: clamping twice by the same bound is clamping
once. -/
theorem JSNum.min2_absorb (x m : JSNum) :
    JSNum.min2 (JSNum.min2 x m) m = JSNum.min2 x m := by
  cases x <;> cases m <;> simp [JSNum.min2, min_assoc, min_self]

/-- Writing back the value a key already holds is the identity. -/
theorem aset_eq_self_of_aget {α : Type} {m : List (String × α)} {k : String}
    {v : α} (h : aget m k = some v) : aset m k v = m := by
  induction m with
  | nil => cases h
  | cons hd tl ih =>
    obtain ⟨k₀, v₀⟩ := hd
    by_cases hk : k₀ = k
    · subst hk
      rw [aget_cons_self] at h
      injection h with hv
      subst hv
      simp [aset]
    · rw [aget_cons_ne _ _ _ _ hk] at h
      simp only [aset]
      rw [if_neg hk, ih h]

/-- The resource loop never touches keys outside the processed ids. -/
theorem resFold_aget_ne (E : Evaluator) (lvl : JSNum) (attr : List (String × JSNum))
    (prof : List (String × String)) (der : List (String × JSNum))
    (vars : List (String × Value)) :
    ∀ (rs : List PackSchemaResource) (m : List (String × Resource)) (k : String),
      (∀ r ∈ rs, r.id ≠ k) →
      aget (rs.foldl (resStep E lvl attr prof der vars) m) k = aget m k := by
  intro rs
  induction rs with
  | nil => intro m k _; rfl
  | cons hd tl ih =>
    intro m k h
    rw [List.foldl_cons,
      ih (resStep E lvl attr prof der vars m hd) k
        (fun x hx => h x (List.mem_cons_of_mem _ hx))]
    unfold resStep
    exact aget_aset_ne m hd.id k _ (h hd (List.mem_cons_self _ _))

/-- After the resource loop of an evaluator that ignores `res`/`derived`,
every processed id (ids unique) holds `⟨min2 x M, M⟩` for its canonical max
`M`. -/
theorem resFold_post (E : Evaluator) (lvl : JSNum) (attr : List (String × JSNum))
    (prof : List (String × String)) (der : List (String × JSNum))
    (vars : List (String × Value)) :
    ∀ (rs : List PackSchemaResource) (m : List (String × Resource)),
      (∀ r ∈ rs, ∀ res res' der₁ der₂,
        E (r.defaultMaxFormula.getD "0") ⟨lvl, attr, res, prof, der₁, vars⟩
          = E (r.defaultMaxFormula.getD "0") ⟨lvl, attr, res', prof, der₂, vars⟩) →
      (rs.map (·.id)).Nodup →
      ∀ r ∈ rs, ∃ x,
        aget (rs.foldl (resStep E lvl attr prof der vars) m) r.id
          = some ⟨JSNum.min2 x (resM E lvl attr prof vars r),
              resM E lvl attr prof vars r⟩ := by
  intro rs
  induction rs with
  | nil => intro m _ _ r hr; cases hr
  | cons hd tl ih =>
    intro m hres hnd r hr
    rw [List.map_cons, List.nodup_cons] at hnd
    rw [List.foldl_cons]
    rcases List.mem_cons.mp hr with heq | hr
    · subst heq
      refine ⟨((aget m r.id).map (·.current)).getD (resM E lvl attr prof vars r), ?_⟩
      have hN : JSNum.max2 0 (E (r.defaultMaxFormula.getD "0")
          ⟨lvl, attr, m, prof, der, vars⟩).floor = resM E lvl attr prof vars r := by
        unfold resM
        rw [hres r (List.mem_cons_self _ _) m [] der []]
      rw [resFold_aget_ne E lvl attr prof der vars tl _ r.id
        (fun x hx hxr => hnd.1 (by rw [← hxr]; exact List.mem_map_of_mem _ hx))]
      unfold resStep
      rw [aget_aset_self, hN]
    · exact ih (resStep E lvl attr prof der vars m hd)
        (fun r' hr' => hres r' (List.mem_cons_of_mem _ hr')) hnd.2 r hr

/-- The resource loop of an evaluator that ignores `res`/`derived` fixes any
map in which every processed id already holds `⟨min2 x M, M⟩`. -/
theorem resFold_fix (E : Evaluator) (lvl : JSNum) (attr : List (String × JSNum))
    (prof : List (String × String)) (der : List (String × JSNum))
    (vars : List (String × Value)) :
    ∀ (rs : List PackSchemaResource) (m : List (String × Resource)),
      (∀ r ∈ rs, ∀ res res' der₁ der₂,
        E (r.defaultMaxFormula.getD "0") ⟨lvl, attr, res, prof, der₁, vars⟩
          = E (r.defaultMaxFormula.getD "0") ⟨lvl, attr, res', prof, der₂, vars⟩) →
      (∀ r ∈ rs, ∃ x, aget m r.id
          = some ⟨JSNum.min2 x (resM E lvl attr prof vars r),
              resM E lvl attr prof vars r⟩) →
      rs.foldl (resStep E lvl attr prof der vars) m = m := by
  intro rs
  induction rs with
  | nil => intro m _ _; rfl
  | cons hd tl ih =>
    intro m hres hpost
    rw [List.foldl_cons]
    have hstep : resStep E lvl attr prof der vars m hd = m := by
      obtain ⟨x, hx⟩ := hpost hd (List.mem_cons_self _ _)
      have hN : JSNum.max2 0 (E (hd.defaultMaxFormula.getD "0")
          ⟨lvl, attr, m, prof, der, vars⟩).floor = resM E lvl attr prof vars hd := by
        unfold resM
        rw [hres hd (List.mem_cons_self _ _) m [] der []]
      unfold resStep
      rw [hN, hx]
      simp only [Option.map_some', Option.getD_some]
      rw [JSNum.min2_absorb]
      exact aset_eq_self_of_aget hx
    rw [hstep]
    exact ih m (fun r hr => hres r (List.mem_cons_of_mem _ hr))
      (fun r hr => hpost r (List.mem_cons_of_mem _ hr))

/-- `summarizeEquipmentVars` reads only the slots and the inventory items. -/
theorem summarizeEquipmentVars_congr {c c' : Character} (pack : LoadedPack)
    (hs : c'.slots = c.slots) (hi : c'.inventory.items = c.inventory.items) :
    summarizeEquipmentVars c' pack = summarizeEquipmentVars c pack := by
  unfold summarizeEquipmentVars getEquippedIds
  rw [hs, hi]

/-- C4 (amended): `recompute` is idempotent on `res` and `derived` whenever
every schema resource's max formula evaluates independently of the `res` and
`derived` context views (with everything else equal) and resource ids are
unique.  Without that restriction the claim is false: a resource max formula
that reads `derived` while a derived formula reads `res` makes every
`recompute` shrink the resource again (see the counterexample). -/
theorem claim_C4_recompute_idempotent (character : Character) (pack : LoadedPack)
    (E : Evaluator)
    (hres : ∀ r ∈ (pack.schema.map (·.resources)).getD [],
      ∀ res res' der der' vars,
        E (r.defaultMaxFormula.getD "0")
            ⟨character.level, character.attr, res, character.prof, der, vars⟩
          = E (r.defaultMaxFormula.getD "0")
            ⟨character.level, character.attr, res', character.prof, der', vars⟩)
    (hnodup : ((((pack.schema.map (·.resources)).getD []).map (·.id))).Nodup) :
    (recompute (recompute character pack E) pack E).res
        = (recompute character pack E).res ∧
    (recompute (recompute character pack E) pack E).derived
        = (recompute character pack E).derived := by
  have hvars : summarizeEquipmentVars (recompute character pack E) pack
      = summarizeEquipmentVars character pack :=
    summarizeEquipmentVars_congr pack rfl rfl
  have hres1 : (recompute character pack E).res
      = ((pack.schema.map (·.resources)).getD []).foldl
          (resStep E character.level character.attr character.prof
            character.derived (summarizeEquipmentVars character pack))
          character.res := rfl
  have hres2 : (recompute (recompute character pack E) pack E).res
      = ((pack.schema.map (·.resources)).getD []).foldl
          (resStep E character.level character.attr character.prof
            ((recompute character pack E).derived)
            (summarizeEquipmentVars (recompute character pack E) pack))
          ((recompute character pack E).res) := rfl
  have hresEq : (recompute (recompute character pack E) pack E).res
      = (recompute character pack E).res := by
    rw [hres2, hvars, hres1]
    exact resFold_fix E character.level character.attr character.prof
      ((recompute character pack E).derived)
      (summarizeEquipmentVars character pack)
      ((pack.schema.map (·.resources)).getD []) _
      (fun r hr res res' der₁ der₂ => hres r hr res res' der₁ der₂ _)
      (resFold_post E character.level character.attr character.prof
        character.derived (summarizeEquipmentVars character pack)
        ((pack.schema.map (·.resources)).getD []) character.res
        (fun r hr res res' der₁ der₂ => hres r hr res res' der₁ der₂ _) hnodup)
  refine ⟨hresEq, ?_⟩
  have h2 : (recompute (recompute character pack E) pack E).derived
      = ((pack.schema.map (·.derived)).getD []).foldl (fun dm d =>
          aset dm d.id (if (E (d.formula.getD "0")
              ⟨character.level, character.attr,
                (recompute (recompute character pack E) pack E).res,
                character.prof, dm,
                summarizeEquipmentVars (recompute character pack E) pack⟩).isFinite
            then E (d.formula.getD "0")
              ⟨character.level, character.attr,
                (recompute (recompute character pack E) pack E).res,
                character.prof, dm,
                summarizeEquipmentVars (recompute character pack E) pack⟩
            else 0)) [] := rfl
  have h1 : (recompute character pack E).derived
      = ((pack.schema.map (·.derived)).getD []).foldl (fun dm d =>
          aset dm d.id (if (E (d.formula.getD "0")
              ⟨character.level, character.attr,
                (recompute character pack E).res, character.prof, dm,
                summarizeEquipmentVars character pack⟩).isFinite
            then E (d.formula.getD "0")
              ⟨character.level, character.attr,
                (recompute character pack E).res, character.prof, dm,
                summarizeEquipmentVars character pack⟩
            else 0)) [] := rfl
  rw [h2, h1, hvars, hresEq]

/-- C4 fixture parser: a resource max formula reading `derived` and a derived
formula reading `res`. -/
def parseC4 : String → Option Expr
  | "derived.d" => some (.member (.ident "derived") "d")
  | "res.hp.max - 1" =>
      some (.sub (.member (.member (.ident "res") "hp") "max") (.lit 1))
  | "0" => some (.lit 0)
  | _ => none

/-- C4 fixture evaluator. -/
def Ec4 : Evaluator := fun s ctx => evaluateU [] (fun _ => none) parseC4 s ctx

/-- C4 fixture character: `hp` at `{current 10, max 10}`, `derived.d = 9`. -/
def charC4 : Character :=
  ⟨"", "n", "sys", 1, "", "", [], [("hp", ⟨10, 10⟩)], [], [("d", 9)],
   ⟨"unlimited", 0, 0, [], 0⟩, [], [], none⟩

/-- C4 fixture pack: `hp`'s max formula is `derived.d`; derived `d` is
`res.hp.max - 1`. -/
def packC4 : LoadedPack :=
  { metadata := some ⟨"sys"⟩
    schema := some ⟨[], [⟨"hp", some "derived.d"⟩], [], [], none, [],
      [⟨"d", some "res.hp.max - 1"⟩]⟩
    mechanics := none, rules := none, content := none }

/-- C4 witness: idempotence at a concrete character, pack and (constant)
evaluator whose resource formulas cannot read `res`/`derived`. -/
theorem claim_C4_recompute_idempotent_witness :
    (recompute (recompute charC4 packC4 (fun _ _ => 0)) packC4 (fun _ _ => 0)).res
        = (recompute charC4 packC4 (fun _ _ => 0)).res ∧
    (recompute (recompute charC4 packC4 (fun _ _ => 0)) packC4
        (fun _ _ => 0)).derived
        = (recompute charC4 packC4 (fun _ _ => 0)).derived :=
  claim_C4_recompute_idempotent charC4 packC4 (fun _ _ => 0)
    (fun r hr res res' der₁ der₂ vars => rfl) (by with_unfolding_all decide)

/-- C4 counterexample: with `hp.max = derived.d` and `d = res.hp.max - 1`,
starting from `hp {10, 10}` and `d = 9`, the first recompute yields
`hp {9, 9}` and the second `hp {8, 8}` — the second recompute changes the
`res` map again. -/
theorem claim_C4_counterexample :
    (recompute (recompute charC4 packC4 Ec4) packC4 Ec4).res
      ≠ (recompute charC4 packC4 Ec4).res := by
  with_unfolding_all decide

end Gaminator
